import Mathlib

/-!
# Verification of the floathunter-scheduler ingestion pipeline

Shallow embedding of the name-canonicalisation, price-normalisation,
aggregation, stream-decoding, shape-extraction and batch-emission code of
the `floathunter-scheduler` repository (`csfloat_fetcher.py`,
`buff163_fetcher.py`, `whitemarket_fetcher.py`), together with theorems
settling the frozen claims about it.

Python strings are modelled as `List Char`, Python `int` as `ℤ`, Python
`float` as the inductive `PyF` — finite values as exact rationals (the
pipeline only parses decimal literals, compares, and divides by 100, so no
rounding behaviour is observable) plus the IEEE-754 infinities and NaN,
with the IEEE comparison `pyLt` under which every comparison against NaN
is `False` — JSON/Python values as the inductive `JVal`, and Python
`dict`s either as association lists or as structures with one
`Option`-valued field per key the code accesses.
-/

namespace FloatHunter

/-! ## Python string primitives -/

/-- The whitespace characters recognised by Python's `str.strip` (ASCII range;
the feeds are ASCII/UTF-8 text and no claim involves exotic Unicode spaces). -/
def isPySpace (c : Char) : Bool :=
  c = ' ' || c = '\t' || c = '\n' || c = '\x0d' || c = '\x0b' || c = '\x0c'

/-- Python `s.strip()`: remove leading and trailing whitespace. -/
def pyStrip (l : List Char) : List Char :=
  ((l.dropWhile isPySpace).reverse.dropWhile isPySpace).reverse

/-- Recursion core of `replaceSub`; the fuel only needs to dominate the
number of consumed characters, so the wrapper passes the input length. -/
def replaceSubGo (pat rep : List Char) : ℕ → List Char → List Char
  | 0, l => l
  | _ + 1, [] => []
  | fuel + 1, c :: rest =>
    if pat.isPrefixOf (c :: rest) && !pat.isEmpty then
      rep ++ replaceSubGo pat rep fuel (rest.drop (pat.length - 1))
    else
      c :: replaceSubGo pat rep fuel rest

/-- Python `s.replace(pat, rep)` for a non-empty `pat`: replace all
non-overlapping occurrences left to right.  (For `pat = []` this is the
identity; the source only ever replaces non-empty literals.) -/
def replaceSub (pat rep l : List Char) : List Char :=
  replaceSubGo pat rep l.length l

/-- Python `pat in s` (substring containment). -/
def containsSub (pat s : List Char) : Bool := decide (pat <:+: s)

/-- Python `sep.join(parts)`. -/
def pyJoin (sep : List Char) : List (List Char) → List Char
  | [] => []
  | [p] => p
  | p :: q :: rest => p ++ sep ++ pyJoin sep (q :: rest)

/-! ## Name Canonicalizer (`parse_market_hash_name`, `detect_phase`,
`build_item_key` — `csfloat_fetcher.py` lines 24–57, `buff163_fetcher.py`
lines 27–73) -/

def CONDITION_NAMES : List (List Char) :=
  ["Factory New".data, "Minimal Wear".data, "Field-Tested".data,
   "Well-Worn".data, "Battle-Scarred".data]

def PHASE_TOKENS : List (List Char) :=
  ["Ruby".data, "Sapphire".data, "Black Pearl".data, "Emerald".data,
   "Phase 1".data, "Phase 2".data, "Phase 3".data, "Phase 4".data]

/-- The parenthesised suffix `f"({cond})"` the condition loop looks for. -/
def condSuffix (cond : List Char) : List Char := '(' :: (cond ++ [')'])

/-- Result of `parse_market_hash_name` (a 4-tuple in the source). -/
structure ParsedName where
  base : List Char
  stattrak : Bool
  souvenir : Bool
  condition : Option (List Char)
deriving DecidableEq, Repr

/-- `parse_market_hash_name` (`csfloat_fetcher.py` lines 33–46).  The
condition loop strips the first matching `"(cond)"` suffix (then `.strip()`);
the marker substrings `"StatTrak™ "`, `"StatTrak "`, `"Souvenir "` are then
removed everywhere and the result stripped. -/
def parse_market_hash_name (name : List Char) : ParsedName :=
  if name = [] then ⟨[], false, false, none⟩
  else
    let s := name
    let stattrak := (containsSub "StatTrak".data s) || (containsSub "StatTrak™".data s)
    let souvenir := containsSub "Souvenir".data s
    let stripped :=
      match CONDITION_NAMES.find? (fun cond => (condSuffix cond).isSuffixOf s) with
      | some cond => (pyStrip (s.take (s.length - (cond.length + 2))), some cond)
      | none => (s, none)
    let base :=
      pyStrip (replaceSub "Souvenir ".data []
        (replaceSub "StatTrak ".data []
          (replaceSub "StatTrak™ ".data [] stripped.1)))
    ⟨base, stattrak, souvenir, stripped.2⟩

/-- `detect_phase` (`buff163_fetcher.py` lines 57–62): first phase token
occurring as a substring, in the fixed list order. -/
def detect_phase (name : List Char) : Option (List Char) :=
  PHASE_TOKENS.find? (fun token => containsSub token name)

/-- `build_item_key` (`csfloat_fetcher.py` lines 49–57): join the non-empty
components with `"|"` and strip. -/
def buildItemKey (name_base : List Char) (stattrak souvenir : Bool)
    (condition phase : Option (List Char)) : List Char :=
  let parts : List (List Char) :=
    [name_base,
     if stattrak then "StatTrak".data else [],
     if souvenir then "Souvenir".data else [],
     condition.getD [],
     phase.getD []]
  pyStrip (pyJoin ['|'] (parts.filter (fun p => p ≠ [])))

/-! ## Python floats

A Python `float` is an IEEE-754 double: besides finite values it has the
two infinities and NaN, and **every** comparison involving NaN is `False`
— which makes `min`/`max`-style merges written with `<` order-dependent
once a NaN enters.  `PyF` models this value space (finite doubles as exact
rationals: the pipeline only parses decimal literals and divides by 100,
never introducing rounding that a claim observes), and `pyLt` models the
IEEE `<`. -/

inductive PyF where
  | fin (q : ℚ)
  | pinf
  | ninf
  | nan
deriving DecidableEq

/-- IEEE `<` on Python floats: any comparison involving NaN is `False`,
otherwise `-inf < finite < +inf` with the rational order on finites. -/
def pyLt : PyF → PyF → Bool
  | .nan, _ => false
  | _, .nan => false
  | .ninf, .ninf => false
  | .ninf, _ => true
  | _, .ninf => false
  | .pinf, _ => false
  | .fin a, .fin b => decide (a < b)
  | .fin _, .pinf => true

/-- IEEE `>`: `a > b` is `b < a` (both `False` when NaN is involved). -/
def pyGt (a b : PyF) : Bool := pyLt b a

/-- `v / 100.0`: finite values divide exactly, infinities and NaN are
preserved (IEEE semantics). -/
def pyDiv100 : PyF → PyF
  | .fin q => .fin (q / 100)
  | x => x

/-- The non-NaN floats embed order-isomorphically into
`WithBot (WithTop ℚ)`; NaN is sent to a junk value and every use of the
embedding is guarded by a no-NaN hypothesis. -/
def ext2 : PyF → WithBot (WithTop ℚ)
  | .fin q => ((q : WithTop ℚ) : WithBot (WithTop ℚ))
  | .pinf => ((⊤ : WithTop ℚ) : WithBot (WithTop ℚ))
  | .ninf => ⊥
  | .nan => ⊥

/-! ## Python numeric conversions

`parsePyFloat` models the builtin `float(str)`: optional surrounding
whitespace and sign, the case-insensitive special forms `inf`, `infinity`
and `nan`, and decimal literals with optional fractional part, optional
exponent and PEP-515 underscore digit separators (an underscore must sit
between two digits). -/

def digitsVal (ds : List Char) : ℕ :=
  ds.foldl (fun a c => a * 10 + (c.toNat - 48)) 0

def isDigitOrSep (c : Char) : Bool := c.isDigit || c = '_'

/-- Validate one digit group with PEP-515 underscores and strip them:
`some digits` when legal (the empty group is legal and empty), `none` when
an underscore is leading, trailing or doubled. -/
def deUnderscore (g : List Char) : Option (List Char) :=
  if g.any (fun c => c = '_') then
    if g.head?.getD '0' ≠ '_' ∧ g.getLast?.getD '0' ≠ '_'
        ∧ containsSub ['_', '_'] g = false then
      some (g.filter Char.isDigit)
    else none
  else some g

/-- Split off the leading digit group (digits and underscores) and
validate it. -/
def parseGroup (cs : List Char) : Option (List Char) × List Char :=
  (deUnderscore (cs.takeWhile isDigitOrSep), cs.dropWhile isDigitOrSep)

/-- The optional exponent tail `e±ddd` of a float literal (`some 0` when
absent, `none` when malformed). -/
def parseExpPart : List Char → Option ℤ
  | [] => some 0
  | c :: r =>
    if c = 'e' ∨ c = 'E' then
      let signed : ℤ × List Char :=
        match r with
        | '+' :: t => (1, t)
        | '-' :: t => (-1, t)
        | t => (1, t)
      match parseGroup signed.2 with
      | (some ds, rest) =>
        if ds ≠ [] ∧ rest = [] then some (signed.1 * digitsVal ds) else none
      | (none, _) => none
    else none

/-- Python `float(s)`. -/
def parsePyFloat (cs0 : List Char) : Option PyF :=
  let cs := pyStrip cs0
  let signed : Bool × List Char :=
    match cs with
    | '+' :: r => (false, r)
    | '-' :: r => (true, r)
    | r => (false, r)
  let low := signed.2.map Char.toLower
  if low = "inf".data ∨ low = "infinity".data then
    some (if signed.1 then .ninf else .pinf)
  else if low = "nan".data then
    some .nan
  else
    match parseGroup signed.2 with
    | (none, _) => none
    | (some ip, r1) =>
      let frac : Option (List Char × List Char) :=
        match r1 with
        | '.' :: r =>
          (match parseGroup r with
           | (some fp, r2) => some (fp, r2)
           | (none, _) => none)
        | r => some ([], r)
      match frac with
      | none => none
      | some (fp, r2) =>
        if ip = [] ∧ fp = [] then none
        else
          (parseExpPart r2).map fun e =>
            let mag : ℚ :=
              ((digitsVal ip : ℚ) + (digitsVal fp : ℚ) / (10 : ℚ) ^ fp.length)
                * (10 : ℚ) ^ e
            .fin (if signed.1 then -mag else mag)

/-- Python `int(s)` on a decimal literal (optional sign, digits, PEP-515
underscores). -/
def parsePyInt (cs0 : List Char) : Option ℤ :=
  let cs := pyStrip cs0
  let signed : ℤ × List Char :=
    match cs with
    | '+' :: r => (1, r)
    | '-' :: r => (-1, r)
    | r => (1, r)
  match parseGroup signed.2 with
  | (some ds, rest) =>
    if ds ≠ [] ∧ rest = [] then some (signed.1 * digitsVal ds) else none
  | (none, _) => none

/-- Python `int(f)` on a float: truncation toward zero. -/
def pyTrunc (q : ℚ) : ℤ := q.num.tdiv q.den

/-! ## JSON / Python values -/

/-- A JSON value as produced by `json.loads` / `ijson` (also used for the
values held in raw feed records).  Strings are `.s`, JSON integers `.i`,
JSON floats `.f`, objects assoc lists in key order. -/
inductive JVal where
  | null
  | b (bo : Bool)
  | i (n : ℤ)
  | f (q : ℚ)
  | s (cs : List Char)
  | arr (elems : List JVal)
  | obj (kvs : List (List Char × JVal))

/-- Python truthiness of a value. -/
def JVal.truthy : JVal → Bool
  | .null => false
  | .b bo => bo
  | .i n => n ≠ 0
  | .f q => q ≠ 0
  | .s cs => !cs.isEmpty
  | .arr xs => !xs.isEmpty
  | .obj kvs => !kvs.isEmpty

def JVal.isObjV : JVal → Bool
  | .obj _ => true
  | _ => false

/-- `x or y` on Python values. -/
def pyOr (x y : JVal) : JVal := if x.truthy then x else y

/-- `d.get(k)` on a mapping value: `none` both for an absent key and for a
non-mapping receiver (on a non-mapping Python raises `AttributeError`;
the raw feeds only put mappings in the accessed positions). -/
def JVal.getKey : JVal → List Char → Option JVal
  | .obj kvs, k => (kvs.find? (fun kv => kv.1 = k)).map (·.2)
  | _, _ => none

/-- Python `float(v)`: numbers and numeric strings convert (including
`"nan"`/`"inf"` strings), `bool` maps to 0/1, everything else raises
(modelled as `none`). -/
def pyFloat : JVal → Option PyF
  | .i n => some (.fin (n : ℚ))
  | .f q => some (.fin q)
  | .b bo => some (.fin (if bo then 1 else 0))
  | .s cs => parsePyFloat cs
  | _ => none

/-- Python `int(v)`: `none` models an exception. -/
def pyInt : JVal → Option ℤ
  | .i n => some n
  | .b bo => some (if bo then 1 else 0)
  | .f q => some (pyTrunc q)
  | .s cs => parsePyInt cs
  | _ => none

/-- Python `str(v)`.  Only the string / int / bool / `None` renderings are
reachable in any claim; the remaining constructors get a nominal rendering
(Python would print `repr`-style text there). -/
def pyStr : JVal → List Char
  | .s cs => cs
  | .i n => (toString n).data
  | .b true => "True".data
  | .b false => "False".data
  | .null => "None".data
  | .f q => (toString q).data
  | .arr _ => "[]".data
  | .obj _ => "\x7b\x7d".data

/-! ## Price Normalizer (`_to_usd` — `whitemarket_fetcher.py` lines 596–610;
the closure `to_usd` in `aggregate_whitemarket`, lines 495–511, has the
verbatim same body and is modelled by the same definition) -/

/-- `isinstance(v, (int, float))` (Python `bool` is a subclass of `int`). -/
def isNumLike : JVal → Bool
  | .i _ => true
  | .f _ => true
  | .b _ => true
  | _ => false

/-- The numeric value of a number-like `JVal`. -/
def jNum : JVal → ℚ
  | .i n => (n : ℚ)
  | .f q => q
  | .b bo => if bo then 1 else 0
  | _ => 0

/-- `_to_usd(val, field_name)`: a string is first parsed as a float with `,`
accepted as decimal separator (failure → `None`); the parse yields a
`float`, so a `*_cents` field then divides it by 100 and the big-`int`
heuristic can no longer fire; a non-string under `*_cents` divides by 100
when number-like, an `int` at or above 1000 divides by 100; otherwise
`float(v)`. -/
def toUsd (val : JVal) (field : List Char) : Option PyF :=
  match val with
  | .s cs =>
    match parsePyFloat (pyStrip (replaceSub [','] ['.'] cs)) with
    | none => none
    | some x =>
      if "_cents".data.isSuffixOf field then some (pyDiv100 x) else some x
  | v =>
    if "_cents".data.isSuffixOf field && isNumLike v then
      some (pyDiv100 (.fin (jNum v)))
    else if (match v with | .i n => decide (1000 ≤ n) | _ => false) then
      some (pyDiv100 (.fin (jNum v)))
    else
      pyFloat v

/-! ## csfloat aggregator (`aggregate_csfloat` — `csfloat_fetcher.py`
lines 129–169).  The Python `dict` keyed by `item_key` is modelled as a
function `List Char → Option CsRec` (lookup semantics of the dict). -/

/-- One raw csfloat item: the three keys the aggregator reads, each `none`
when absent from the JSON object. -/
structure CsRaw where
  market_hash_name : Option JVal
  qty : Option JVal
  min_price : Option JVal

/-- `str(it.get("market_hash_name") or "")`. -/
def csNameStr (it : CsRaw) : List Char :=
  pyStr (pyOr (it.market_hash_name.getD .null) (.s []))

/-- `qty = it.get("qty") or 0; qty = int(qty)` with exceptions → 0. -/
def csQty (it : CsRaw) : ℤ :=
  (pyInt (pyOr (it.qty.getD .null) (.i 0))).getD 0

/-- csfloat price: an `int` (or `bool`) `min_price` is divided by 100
unconditionally, any other non-`None` value goes through `float(...)`,
exceptions → `None`. -/
def csPrice (it : CsRaw) : Option PyF :=
  match it.min_price.getD JVal.null with
  | .i n => some (.fin ((n : ℚ) / 100))
  | .b bo => some (.fin ((if bo then (1 : ℚ) else 0) / 100))
  | .null => none
  | v => pyFloat v

def csParsed (it : CsRaw) : ParsedName :=
  parse_market_hash_name (csNameStr it)

def csKey (it : CsRaw) : List Char :=
  buildItemKey (csParsed it).base (csParsed it).stattrak (csParsed it).souvenir
    (csParsed it).condition none

/-- A canonical csfloat record (the dict built at lines 152–162). -/
structure CsRec where
  item_key : List Char
  name_base : List Char
  stattrak : Bool
  souvenir : Bool
  condition : Option (List Char)
  phase : Option (List Char)
  price_csfloat : Option PyF
  qty_csfloat : ℤ
  fetched_at : ℕ
deriving DecidableEq

def csSeed (now : ℕ) (it : CsRaw) : CsRec :=
  ⟨csKey it, (csParsed it).base, (csParsed it).stattrak, (csParsed it).souvenir,
   (csParsed it).condition, none, csPrice it, csQty it, now⟩

/-- Merge of a duplicate item into an existing record: sum `qty`, and
replace the stored price exactly when the new one is non-`None` and the
stored one is `None` or IEEE-greater (a `None` price never overwrites;
note `pyLt p c = false` whenever either side is NaN). -/
def csMerge (rec : CsRec) (it : CsRaw) : CsRec :=
  { rec with
    qty_csfloat := rec.qty_csfloat + csQty it
    price_csfloat :=
      match csPrice it with
      | none => rec.price_csfloat
      | some p =>
        match rec.price_csfloat with
        | none => some p
        | some c => if pyLt p c then some p else some c }

def csStep (now : ℕ) (acc : List Char → Option CsRec) (it : CsRaw) :
    List Char → Option CsRec :=
  fun k =>
    if k = csKey it then
      some (match acc (csKey it) with
            | none => csSeed now it
            | some rec => csMerge rec it)
    else acc k

/-- `aggregate_csfloat(items)`; `now` is the single capture timestamp taken
before the loop. -/
def aggregate_csfloat (now : ℕ) (items : List CsRaw) : List Char → Option CsRec :=
  items.foldl (csStep now) (fun _ => none)

/-! ## buff163 aggregator (`aggregate_buff163` — `buff163_fetcher.py`
lines 126–168) -/

/-- One top-level entry of the buff163 feed: the five keys the aggregator
probes (`highets_offer` is the source's typo). -/
structure BuffEntry where
  starting_at : Option JVal
  startingAt : Option JVal
  highest_order : Option JVal
  highets_offer : Option JVal
  highestOrder : Option JVal

structure BuffRaw where
  name : List Char
  entry : BuffEntry

/-- `start_obj = entry.get("starting_at") or entry.get("startingAt") or {}`,
then `float(start_obj.get("price"))` with `None`/exceptions → `None`. -/
def buffStart (r : BuffRaw) : Option PyF :=
  let so := pyOr (r.entry.starting_at.getD .null)
              (pyOr (r.entry.startingAt.getD .null) (.obj []))
  (so.getKey "price".data).bind pyFloat

def buffBuy (r : BuffRaw) : Option PyF :=
  let bo := pyOr (r.entry.highest_order.getD .null)
              (pyOr (r.entry.highets_offer.getD .null)
                (pyOr (r.entry.highestOrder.getD .null) (.obj [])))
  (bo.getKey "price".data).bind pyFloat

def buffKey (r : BuffRaw) : List Char :=
  buildItemKey (parse_market_hash_name r.name).base
    (parse_market_hash_name r.name).stattrak
    (parse_market_hash_name r.name).souvenir
    (parse_market_hash_name r.name).condition
    (detect_phase r.name)

structure BuffRec where
  item_key : List Char
  name_base : List Char
  stattrak : Bool
  souvenir : Bool
  condition : Option (List Char)
  phase : Option (List Char)
  price_buff163 : Option PyF
  highest_offer_buff163 : Option PyF
  fetched_at : ℕ
deriving DecidableEq

def buffSeed (now : ℕ) (r : BuffRaw) : BuffRec :=
  ⟨buffKey r, (parse_market_hash_name r.name).base,
   (parse_market_hash_name r.name).stattrak,
   (parse_market_hash_name r.name).souvenir,
   (parse_market_hash_name r.name).condition,
   detect_phase r.name, buffStart r, buffBuy r, now⟩

/-- Merge of duplicates: IEEE `<` keeps the smaller listing price, IEEE `>`
the larger buy-order price, `None` never overwrites a stored value. -/
def buffMerge (rec : BuffRec) (r : BuffRaw) : BuffRec :=
  { rec with
    price_buff163 :=
      match buffStart r with
      | none => rec.price_buff163
      | some p =>
        match rec.price_buff163 with
        | none => some p
        | some c => if pyLt p c then some p else some c
    highest_offer_buff163 :=
      match buffBuy r with
      | none => rec.highest_offer_buff163
      | some p =>
        match rec.highest_offer_buff163 with
        | none => some p
        | some c => if pyGt p c then some p else some c }

def buffStep (now : ℕ) (acc : List Char → Option BuffRec) (r : BuffRaw) :
    List Char → Option BuffRec :=
  fun k =>
    if k = buffKey r then
      some (match acc (buffKey r) with
            | none => buffSeed now r
            | some rec => buffMerge rec r)
    else acc k

def aggregate_buff163 (now : ℕ) (pairs : List BuffRaw) : List Char → Option BuffRec :=
  pairs.foldl (buffStep now) (fun _ => none)

/-! ## WhiteMarket candidate-price probing (`_normalize_price`,
`whitemarket_fetcher.py` lines 612–622, and the inline loop of
`aggregate_whitemarket`, lines 524–529) -/

/-- A raw WhiteMarket product restricted to its price-bearing keys. -/
structure WmProduct where
  price_usd : Option JVal
  price_cents : Option JVal
  price : Option JVal
  amount : Option JVal
  value : Option JVal

def wmField (p : WmProduct) (f : List Char) : Option JVal :=
  if f = "price_usd".data then p.price_usd
  else if f = "price_cents".data then p.price_cents
  else if f = "price".data then p.price
  else if f = "amount".data then p.amount
  else if f = "value".data then p.value
  else none

/-- `f in p and p[f] is not None`. -/
def presentNonNull (p : WmProduct) (f : List Char) : Option JVal :=
  match wmField p f with
  | some .null => none
  | some v => some v
  | none => none

/-- `_normalize_price`'s candidate list: for each field in its fixed order,
the `_to_usd` value when present, parseable and strictly positive. -/
def normCandidates (p : WmProduct) : List PyF :=
  ["price_usd".data, "price_cents".data, "price".data, "amount".data,
   "value".data].filterMap
    (fun f =>
      match presentNonNull p f with
      | some v =>
        match toUsd v f with
        | some usd => if pyGt usd (.fin 0) then some usd else none
        | none => none
      | none => none)

/-- `_normalize_price(p)`: `min(candidates)` (not the first candidate),
`None` when no candidate is valid.  `min` keeps the first element and
replaces it whenever a later one compares IEEE-smaller. -/
def normalize_price (p : WmProduct) : Option PyF :=
  match normCandidates p with
  | [] => none
  | c :: cs => some (cs.foldl (fun m x => if pyLt x m then x else m) c)

/-- The field order of the inline loop in `aggregate_whitemarket`
(different from `_normalize_price`'s order). -/
def linePriceFields : List (List Char) :=
  ["price".data, "price_usd".data, "price_cents".data, "amount".data,
   "value".data]

def linePriceGo (p : WmProduct) : List (List Char) → Option PyF
  | [] => none
  | f :: fs =>
    match presentNonNull p f with
    | some v =>
      match toUsd v f with
      | some usd => some usd
      | none => linePriceGo p fs
    | none => linePriceGo p fs

/-- The inline candidate loop of `aggregate_whitemarket`: first field whose
`to_usd` value is non-`None` (no positivity filter), `break` on success. -/
def linePrice (p : WmProduct) : Option PyF :=
  linePriceGo p linePriceFields

/-! ## Stream Decoder (`PrependStream` / `open_source_stream` —
`csfloat_fetcher.py` lines 82–104).  A byte source is a `List ℕ`; reads are
deterministic: a sized read returns `min(n, available)` bytes. -/

structure PSState where
  buf : List ℕ
  base : List ℕ
deriving DecidableEq

/-- `io.BytesIO.read(n)`: a negative size reads everything. -/
def bufRead (buf : List ℕ) (n : ℤ) : List ℕ × List ℕ :=
  if n < 0 then (buf, [])
  else (buf.take n.toNat, buf.drop n.toNat)

/-- A read on the underlying response stream. -/
def baseRead (base : List ℕ) (n : ℤ) : List ℕ × List ℕ :=
  if n < 0 then (base, [])
  else (base.take n.toNat, base.drop n.toNat)

/-- `PrependStream.read(n)`: read from the buffer; if `n == -1` or the
buffer satisfied the request, return; otherwise top up from the base. -/
def psRead (st : PSState) (n : ℤ) : List ℕ × PSState :=
  let br := bufRead st.buf n
  if n = -1 ∨ (br.1.length : ℤ) = n then (br.1, ⟨br.2, st.base⟩)
  else
    let rr := baseRead st.base (n - br.1.length)
    (br.1 ++ rr.1, ⟨br.2, rr.2⟩)

def GZIP_MAGIC : List ℕ := [0x1f, 0x8b]

/-- Whether `open_source_stream`'s 4-byte peek carries the gzip magic. -/
def isGzipHead (src : List ℕ) : Bool :=
  GZIP_MAGIC.isPrefixOf (src.take 4)

/-- `open_source_stream` in the non-gzip case: `head = raw.read(4)` and the
returned object is `PrependStream(head, raw)`. -/
def openSourceStream (src : List ℕ) : PSState :=
  ⟨src.take 4, src.drop 4⟩

/-! ## Batch Emitter (`chunked` / `upsert_market_rows` —
`csfloat_fetcher.py` lines 60–68 and 172–174).  The persistence
collaborator is a function `u` from a chunk to `Except ε Unit`; the model
additionally returns the list of chunks actually handed to `u`, which in
Python is the sequence of `.upsert(batch).execute()` calls. -/

def chunkedGo (size : ℕ) (buf : List α) : List α → List (List α)
  | [] => if buf.isEmpty then [] else [buf]
  | x :: xs =>
    let grown := buf ++ [x]
    if size ≤ grown.length then grown :: chunkedGo size [] xs
    else chunkedGo size grown xs

/-- `chunked(iterable, size)`. -/
def chunked (l : List α) (size : ℕ) : List (List α) :=
  chunkedGo size [] l

def upsertGo (u : List α → Except ε Unit) :
    List (List α) → List (List α) × Except ε Unit
  | [] => ([], .ok ())
  | c :: cs =>
    match u c with
    | .error e => ([c], .error e)
    | .ok () =>
      let r := upsertGo u cs
      (c :: r.1, r.2)

/-- `upsert_market_rows(sb, rows)`: one upsert call per chunk, an exception
aborts the loop and propagates unchanged (the function itself returns
nothing and attaches nothing to the exception). -/
def upsertMarketRows (u : List α → Except ε Unit) (rows : List α) (size : ℕ) :
    List (List α) × Except ε Unit :=
  upsertGo u (chunked rows size)

/-! ## WhiteMarket CSV ingest loop (`run_whitemarket_ingest`, CSV branch —
`whitemarket_fetcher.py` lines 575–744).  `datetime.now` is modelled by an
abstract clock `ℕ → ℕ` read at successive ticks; the source calls it inside
the new-record literal (line 681), i.e. once per *inserted record*, not
once per run. -/

structure WmRow where
  market_hash_name : List Char
  price : Option (List Char)
  market_product_count : Option (List Char)

structure WmRec where
  item_key : List Char
  name_base : List Char
  stattrak : Bool
  souvenir : Bool
  condition : Option (List Char)
  price_whitemarket : PyF
  qty_whitemarket : ℤ
  fetched_at : ℕ
deriving DecidableEq

/-- The aggregation dict: an insertion-ordered association list. -/
structure WmState where
  tbl : List (List Char × WmRec)
  tick : ℕ
  emitted : List WmRec

def alGet (t : List (List Char × WmRec)) (k : List Char) : Option WmRec :=
  (t.find? (fun kv => kv.1 = k)).map (·.2)

def alSet (t : List (List Char × WmRec)) (k : List Char) (v : WmRec) :
    List (List Char × WmRec) :=
  if (t.find? (fun kv => kv.1 = k)).isSome then
    t.map (fun kv => if kv.1 = k then (k, v) else kv)
  else t ++ [(k, v)]

/-- `float(str(price_str).replace(",", ".").strip())` with exceptions and an
absent value → `None`. -/
def wmRowPrice (r : WmRow) : Option PyF :=
  match r.price with
  | none => none
  | some cs => parsePyFloat (pyStrip (replaceSub [','] ['.'] cs))

/-- `int(qty_str) if qty_str is not None and str(qty_str).strip() != '' else 0`,
exceptions → 0. -/
def wmRowQty (r : WmRow) : ℤ :=
  match r.market_product_count with
  | none => 0
  | some cs => if pyStrip cs ≠ [] then (parsePyInt cs).getD 0 else 0

/-- One iteration of the CSV ingest loop: skip rows with unparseable price,
empty name or empty base; otherwise merge (min price, summed qty) or insert
a new record stamped with `clock tick`; flush the dict into `emitted` when
it reaches `batchSize` keys. -/
def wmStep (clock : ℕ → ℕ) (batchSize : ℕ) (st : WmState) (r : WmRow) : WmState :=
  match wmRowPrice r with
  | none => st
  | some price =>
    if r.market_hash_name = [] then st
    else
      let p := parse_market_hash_name r.market_hash_name
      if p.base = [] then st
      else
        let key := buildItemKey p.base p.stattrak p.souvenir p.condition none
        let st1 : WmState :=
          match alGet st.tbl key with
          | some rec =>
            let rec' : WmRec :=
              { rec with
                price_whitemarket :=
                  if pyLt price rec.price_whitemarket then price
                  else rec.price_whitemarket
                qty_whitemarket := rec.qty_whitemarket + wmRowQty r }
            { st with tbl := alSet st.tbl key rec' }
          | none =>
            { st with
              tbl := alSet st.tbl key
                ⟨key, p.base, p.stattrak, p.souvenir, p.condition,
                 price, wmRowQty r, clock st.tick⟩
              tick := st.tick + 1 }
        if batchSize ≤ st1.tbl.length then
          ⟨[], st1.tick, st1.emitted ++ st1.tbl.map (·.2)⟩
        else st1

def runWmIngest (clock : ℕ → ℕ) (batchSize : ℕ) (rows : List WmRow) : WmState :=
  rows.foldl (wmStep clock batchSize) ⟨[], 0, []⟩

/-- All canonical records created by a run: flushed batches plus the final
flush of the remaining table. -/
def wmRecords (st : WmState) : List WmRec :=
  st.emitted ++ st.tbl.map (·.2)

/-! ## Structured Reader (`fetch_csfloat` — `csfloat_fetcher.py` lines
107–126).  A recursive-descent model of the JSON fragment the feeds use
(strings without escape sequences; `inf`/`nan` and leading-zero quirks
outside the fragment). `ijsonItems` models `ijson.items(stream, "item")` as
the pair (items yielded before completion or failure, completed without
error). -/

def skipWs (cs : List Char) : List Char :=
  cs.dropWhile (fun c => c = ' ' || c = '\t' || c = '\n' || c = '\x0d')

/-- Body of a JSON string after the opening quote. -/
def parseStrBody (cs : List Char) : Option (List Char × List Char) :=
  match cs.dropWhile (fun c => c ≠ '"') with
  | '"' :: r => some (cs.takeWhile (fun c => c ≠ '"'), r)
  | _ => none

/-- A JSON number; integer literals decode to `.i`, fraction/exponent forms
to `.f`. -/
def parseJNum (cs : List Char) : Option (JVal × List Char) :=
  let sgn : Bool × List Char :=
    match cs with
    | '-' :: r => (true, r)
    | r => (false, r)
  let ip := sgn.2.takeWhile Char.isDigit
  let r1 := sgn.2.dropWhile Char.isDigit
  if ip = [] then none
  else
    let fracStep : Option (List Char × List Char) :=
      match r1 with
      | '.' :: r2 =>
        let fp := r2.takeWhile Char.isDigit
        if fp = [] then none else some (fp, r2.dropWhile Char.isDigit)
      | _ => some ([], r1)
    match fracStep with
    | none => none
    | some (fp, r2) =>
      let expStep : Option (Option ℤ × List Char) :=
        match r2 with
        | 'e' :: r3 =>
          let es : ℤ × List Char :=
            match r3 with
            | '+' :: t => (1, t)
            | '-' :: t => (-1, t)
            | t => (1, t)
          let ds := es.2.takeWhile Char.isDigit
          if ds = [] then none
          else some (some (es.1 * digitsVal ds), es.2.dropWhile Char.isDigit)
        | 'E' :: r3 =>
          let es : ℤ × List Char :=
            match r3 with
            | '+' :: t => (1, t)
            | '-' :: t => (-1, t)
            | t => (1, t)
          let ds := es.2.takeWhile Char.isDigit
          if ds = [] then none
          else some (some (es.1 * digitsVal ds), es.2.dropWhile Char.isDigit)
        | _ => some (none, r2)
      match expStep with
      | none => none
      | some (e?, r3) =>
        if fp = [] ∧ e? = none then
          some (.i (if sgn.1 then -(digitsVal ip : ℤ) else (digitsVal ip : ℤ)), r3)
        else
          let mag : ℚ :=
            ((digitsVal ip : ℚ) + (digitsVal fp : ℚ) / (10 : ℚ) ^ fp.length)
              * (10 : ℚ) ^ (e?.getD 0)
          some (.f (if sgn.1 then -mag else mag), r3)

mutual

def parseVal : ℕ → List Char → Option (JVal × List Char)
  | 0, _ => none
  | fuel + 1, cs =>
    match skipWs cs with
    | 'n' :: 'u' :: 'l' :: 'l' :: r => some (.null, r)
    | 't' :: 'r' :: 'u' :: 'e' :: r => some (.b true, r)
    | 'f' :: 'a' :: 'l' :: 's' :: 'e' :: r => some (.b false, r)
    | '"' :: r => (parseStrBody r).map (fun sr => (.s sr.1, sr.2))
    | '[' :: r =>
      (match skipWs r with
       | ']' :: r2 => some (.arr [], r2)
       | _ => parseArrLoop fuel r [])
    | '{' :: r =>
      (match skipWs r with
       | '}' :: r2 => some (.obj [], r2)
       | _ => parseObjLoop fuel r [])
    | r => parseJNum r

def parseArrLoop : ℕ → List Char → List JVal → Option (JVal × List Char)
  | 0, _, _ => none
  | fuel + 1, cs, acc =>
    match parseVal fuel cs with
    | none => none
    | some (v, r) =>
      match skipWs r with
      | ',' :: r2 => parseArrLoop fuel r2 (acc ++ [v])
      | ']' :: r2 => some (.arr (acc ++ [v]), r2)
      | _ => none

def parseObjLoop : ℕ → List Char → List (List Char × JVal) →
    Option (JVal × List Char)
  | 0, _, _ => none
  | fuel + 1, cs, acc =>
    match skipWs cs with
    | '"' :: r =>
      (match parseStrBody r with
       | none => none
       | some (k, r1) =>
         match skipWs r1 with
         | ':' :: r2 =>
           (match parseVal fuel r2 with
            | none => none
            | some (v, r3) =>
              match skipWs r3 with
              | ',' :: r4 => parseObjLoop fuel r4 (acc ++ [(k, v)])
              | '}' :: r4 => some (.obj (acc ++ [(k, v)]), r4)
              | _ => none)
         | _ => none)
    | _ => none

end

/-- `json.loads(line)`: one complete value, only whitespace after it. -/
def jsonLoads (cs : List Char) : Option JVal :=
  match parseVal (2 * cs.length + 4) cs with
  | some (v, rest) => if skipWs rest = [] then some v else none
  | none => none

/-- The incremental root-array traversal of `ijson.items(stream, "item")`:
elements are yielded as they complete; a parse error, truncation or
trailing garbage raises only afterwards (second component `false`).  A
valid non-array root yields nothing and completes without error. -/
def ijsonArrLoop : ℕ → List Char → List JVal → List JVal × Bool
  | 0, _, acc => (acc, false)
  | fuel + 1, cs, acc =>
    match parseVal (2 * cs.length + 4) cs with
    | none => (acc, false)
    | some (v, r) =>
      match skipWs r with
      | ',' :: r2 => ijsonArrLoop fuel r2 (acc ++ [v])
      | ']' :: r2 => (acc ++ [v], (skipWs r2).isEmpty)
      | _ => (acc ++ [v], false)

def ijsonItems (cs : List Char) : List JVal × Bool :=
  match skipWs cs with
  | '[' :: r =>
    (match skipWs r with
     | ']' :: r2 => ([], (skipWs r2).isEmpty)
     | _ => ijsonArrLoop (r.length + 1) r [])
  | other =>
    match parseVal (2 * other.length + 4) other with
    | some (_, rest) => ([], (skipWs rest).isEmpty)
    | none => ([], false)

/-- The NDJSON fallback of `fetch_csfloat`: `json.loads` per line, keeping
the mappings, skipping lines that fail to parse. -/
def ndjsonDicts (cs : List Char) : List JVal :=
  (cs.splitOn '\n').filterMap (fun line =>
    match jsonLoads line with
    | some v => if v.isObjV then some v else none
    | none => none)

/-- `fetch_csfloat`: stream the root array, yielding its mappings; on any
exception (which the `except` swallows even after partial output) re-open
the source and fall back to NDJSON, appending its yields to the ones
already produced. -/
def fetchCsfloat (cs : List Char) : List JVal :=
  let st := ijsonItems cs
  let ds := st.1.filter JVal.isObjV
  if st.2 then ds else ds ++ ndjsonDicts cs

/-! ## Auxiliary definitions used by the theorems -/

/-- `f in p and p[f] is not None`, then `_to_usd(p[f], f)` — the common
per-field probe of both candidate loops. -/
def toUsdField (p : WmProduct) (f : List Char) : Option PyF :=
  match presentNonNull p f with
  | some v => toUsd v f
  | none => none

/-- The ask/listing-channel merge of the aggregators, as a binary
operation: a non-`None` new price replaces the stored one when the store is
`None` or IEEE-greater than the new price. -/
def mergeMinF (cur new : Option PyF) : Option PyF :=
  match new with
  | none => cur
  | some p =>
    match cur with
    | none => some p
    | some c => if pyLt p c then some p else some c

/-- The bid/order-channel merge (symmetric, with IEEE "larger"). -/
def mergeMaxF (cur new : Option PyF) : Option PyF :=
  match new with
  | none => cur
  | some p =>
    match cur with
    | none => some p
    | some c => if pyGt p c then some p else some c

/-- Applying a run of same-key csfloat items to an optional stored record
(seed on the first, merge on the rest). -/
def csApply (now : ℕ) (o : Option CsRec) (l : List CsRaw) : Option CsRec :=
  l.foldl (fun o it =>
    some (match o with
          | none => csSeed now it
          | some rec => csMerge rec it)) o

def buffApply (now : ℕ) (o : Option BuffRec) (l : List BuffRaw) : Option BuffRec :=
  l.foldl (fun o r =>
    some (match o with
          | none => buffSeed now r
          | some rec => buffMerge rec r)) o

/-- The option components an `ItemIdentity` condition ranges over. -/
def condOpts : List (Option (List Char)) := none :: CONDITION_NAMES.map some

/-- The option components an `ItemIdentity` phase ranges over. -/
def phaseOpts : List (Option (List Char)) := none :: PHASE_TOKENS.map some

/-- The non-base components of `build_item_key`'s `parts`, already filtered
for emptiness. -/
def comboParts (st sv : Bool) (c p : Option (List Char)) : List (List Char) :=
  [if st then "StatTrak".data else [],
   if sv then "Souvenir".data else [],
   c.getD [],
   p.getD []].filter (fun q => q ≠ [])

/-- What `build_item_key` appends after a non-empty base name. -/
def comboSuffix (st sv : Bool) (c p : Option (List Char)) : List Char :=
  (comboParts st sv c p).foldr (fun part acc => '|' :: (part ++ acc)) []

/-- Left inverse of `comboSuffix` on the valid combinations (verified by
evaluation over all of them). -/
def decodeCombo (s : List Char) :
    Bool × Bool × Option (List Char) × Option (List Char) :=
  let st := ('|' :: "StatTrak".data).isPrefixOf s
  let s1 := if st then s.drop 9 else s
  let sv := ('|' :: "Souvenir".data).isPrefixOf s1
  let s2 := if sv then s1.drop 9 else s1
  let cp : Option (List Char) × List Char :=
    match CONDITION_NAMES.find? (fun c => ('|' :: c).isPrefixOf s2) with
    | some c => (some c, s2.drop (c.length + 1))
    | none => (none, s2)
  let ph := PHASE_TOKENS.find? (fun t => cp.2 == '|' :: t)
  (st, sv, cp.1, ph)

/-- All 216 valid (stattrak, souvenir, condition, phase) combinations. -/
def allCombos : List (Bool × Bool × Option (List Char) × Option (List Char)) :=
  [false, true].flatMap fun st =>
    [false, true].flatMap fun sv =>
      condOpts.flatMap fun c =>
        phaseOpts.map fun p => (st, sv, c, p)

/-! ### Named demo inputs -/

/-- Failing chunk-upsert collaborator used in the C8 counterexample. -/
def u8 : List ℕ → Except ℕ Unit :=
  fun c => if c = [1] then .error 0 else .ok ()

/-- Truncated two-element array payload: the array strategy yields both
records and then fails at end-of-input; the second line re-parses. -/
def dupPayload : List Char := "[ \x7b\"a\": 1\x7d,\n\x7b\"a\": 2\x7d".data

/-- A well-formed single-record array payload. -/
def okPayload : List Char := "[\x7b\"a\": 1\x7d]".data

/-- Two valid CSV rows with distinct item keys. -/
def rows7 : List WmRow :=
  [⟨"AK-47 | Redline (Field-Tested)".data, some "1.0".data, some "2".data⟩,
   ⟨"M4A4 | Howl (Minimal Wear)".data, some "3.5".data, none⟩]

/-- Two csfloat items with distinct keys. -/
def it7a : CsRaw :=
  ⟨some (.s "AK-47 | Redline (Field-Tested)".data), some (.i 2), some (.i 1250)⟩

def it7b : CsRaw :=
  ⟨some (.s "AWP | Asiimov (Battle-Scarred)".data), some (.i 1), some (.i 9999)⟩

/-- WhiteMarket product carrying two candidate price fields. -/
def p5ex : WmProduct := ⟨some (.i 5), none, some (.i 3), none, none⟩

/-- Two csfloat items with the same key: one whose `min_price` is the
string `"nan"` (which `float()` converts to NaN), one with a plain float
price. -/
def itNan : CsRaw :=
  ⟨some (.s "AK-47 | Redline (Field-Tested)".data), some (.i 1),
   some (.s "nan".data)⟩

def itFive : CsRaw :=
  ⟨some (.s "AK-47 | Redline (Field-Tested)".data), some (.i 1),
   some (.f 5)⟩

/-- Two csfloat items whose name field is missing resp. the empty string. -/
def l10 : List CsRaw :=
  [⟨none, some (.i 2), some (.i 100)⟩, ⟨some (.s []), some (.i 3), none⟩]

/-! ## Theorems -/

section

attribute [local semireducible] Rat.mul Rat.add Rat.sub Rat.inv

/-- C3: the Stream Decoder is *not* byte-transparent for non-gzip sources.
On the source bytes `b"ABCDEF"` (no gzip magic), the wrapped stream's first
`read(-1)` returns only the four peeked head bytes, and a second `read(-1)`
returns `b""` — signalling end-of-stream — while the underlying source
still holds `b"EF"`; a sized read, by contrast, is served correctly.  This
evaluates the code at the failing input for the code-bug report. -/
theorem prependStream_read_minus_one_drops_tail :
    isGzipHead [65, 66, 67, 68, 69, 70] = false
    ∧ (psRead (openSourceStream [65, 66, 67, 68, 69, 70]) (-1)).1 = [65, 66, 67, 68]
    ∧ (psRead (psRead (openSourceStream [65, 66, 67, 68, 69, 70]) (-1)).2 (-1)).1 = []
    ∧ (psRead (psRead (openSourceStream [65, 66, 67, 68, 69, 70]) (-1)).2 (-1)).2.base
        = [69, 70]
    ∧ (psRead (openSourceStream [65, 66, 67, 68, 69, 70]) 6).1
        = [65, 66, 67, 68, 69, 70] := by
  decide

/-- C4: the `_to_usd` normalizer follows the claimed ordered rules on the
spec's three examples (plus the comma-separator form and the below-threshold
integer), but the csfloat aggregator divides *every* integer `min_price` by
100 — its own comment says "se for inteiro grande" (if a big integer), yet
the code has no threshold — so an integer 100 below the threshold yields
1.00 instead of staying in major units.  Failing-input evaluation for the
code-bug report. -/
theorem price_normalization_examples_and_csfloat_bug :
    toUsd (.s "100".data) "price_cents".data = some (.fin 1)
    ∧ toUsd (.i 5000) "price".data = some (.fin 50)
    ∧ toUsd (.s "12.50".data) "price".data = some (.fin (25 / 2))
    ∧ toUsd (.s "12,50".data) "price".data = some (.fin (25 / 2))
    ∧ toUsd (.i 999) "price".data = some (.fin 999)
    ∧ toUsd (.s "5000".data) "price".data = some (.fin 5000)
    ∧ csPrice ⟨some (.s "X".data), some (.i 1), some (.i 100)⟩ = some (.fin 1)
    ∧ csPrice ⟨some (.s "X".data), some (.i 1), some (.i 100)⟩ ≠ some (.fin 100) := by
  decide

/-- C5 (counterexample): with `price_usd = 5` and `price = 3` both valid
and strictly positive, the candidate probed first in `_normalize_price`'s
fixed order yields 5, yet the price used is 3 — the function takes the
minimum of all valid candidates instead of the first. -/
theorem normalize_price_uses_min_not_first :
    normCandidates p5ex = [.fin 5, .fin 3]
    ∧ normalize_price p5ex = some (.fin 3)
    ∧ PyF.fin 3 ≠ PyF.fin 5 := by
  decide

/-- C6 (counterexample): on a truncated array payload the streaming
strategy yields two records and then fails; the NDJSON fallback then
re-yields the second record, so the reader's output contains it twice —
an earlier strategy extracting records does not stop later strategies. -/
theorem fetch_csfloat_duplicates_after_partial_failure :
    (ijsonItems dupPayload).1.length = 2
    ∧ (ijsonItems dupPayload).2 = false
    ∧ fetchCsfloat dupPayload =
        [JVal.obj [("a".data, JVal.i 1)],
         JVal.obj [("a".data, JVal.i 2)],
         JVal.obj [("a".data, JVal.i 2)]] := by
  exact ⟨rfl, rfl, rfl⟩

/-- C7: `aggregate_csfloat` stamps every record with the single `now` taken
before its loop (evaluated here on two items with distinct keys), but the
WhiteMarket ingest loop calls `datetime.now` inside the new-record literal,
once per inserted record: with a clock that advances by one per call, its
two records carry the distinct timestamps 0 and 1.  Failing-input
evaluation for the code-bug report. -/
theorem whitemarket_timestamps_per_insertion :
    (wmRecords (runWmIngest (fun t => t) 200 rows7)).map (·.fetched_at) = [0, 1]
    ∧ (0 : ℕ) ≠ 1
    ∧ (aggregate_csfloat 42 [it7a, it7b] (csKey it7a)).map (·.fetched_at) = some 42
    ∧ (aggregate_csfloat 42 [it7a, it7b] (csKey it7b)).map (·.fetched_at) = some 42 := by
  decide

/-- C8 (counterexample): the emitter stops at the first failing chunk and
propagates the collaborator's exception unchanged — two runs in which 0
resp. 1 chunks were successfully applied before the failure propagate
*identical* failures, so the count of applied chunks is not part of what is
propagated. -/
theorem upsert_failure_without_applied_count :
    (upsertMarketRows u8 [1] 1).2 = Except.error 0
    ∧ (upsertMarketRows u8 [2, 1] 1).2 = Except.error 0
    ∧ ((upsertMarketRows u8 [1] 1).1.filter (fun c => (u8 c).isOk)).length = 0
    ∧ ((upsertMarketRows u8 [2, 1] 1).1.filter (fun c => (u8 c).isOk)).length = 1
    ∧ (0 : ℕ) ≠ 1 := by
  exact ⟨rfl, rfl, rfl, rfl, by decide⟩

/-! ### IEEE comparison lemmas

`pyLt` is not a strict order on all of `PyF` — NaN compares `False` against
everything — but on the NaN-free values it agrees with the linear order of
`WithBot (WithTop ℚ)` under the embedding `ext2`, which is injective there. -/

lemma pyLt_nan_right (p : PyF) : pyLt p .nan = false := by
  cases p <;> rfl

lemma pyLt_nan_left (p : PyF) : pyLt .nan p = false := by
  cases p <;> rfl

lemma pyLt_irrefl (p : PyF) : pyLt p p = false := by
  cases p <;> simp [pyLt]

lemma pyLt_ne_nan {a b : PyF} (h : pyLt a b = true) : a ≠ .nan ∧ b ≠ .nan := by
  cases a <;> cases b <;> simp_all [pyLt]

lemma pyLt_true_iff {a b : PyF} (ha : a ≠ .nan) (hb : b ≠ .nan) :
    pyLt a b = true ↔ ext2 a < ext2 b := by
  cases a with
  | nan => exact absurd rfl ha
  | fin q =>
    cases b with
    | nan => exact absurd rfl hb
    | fin r =>
      simp only [pyLt, ext2, decide_eq_true_eq]
      exact (WithBot.coe_lt_coe.trans WithTop.coe_lt_coe).symm
    | pinf =>
      simp only [pyLt, ext2, true_iff]
      exact WithBot.coe_lt_coe.2 (WithTop.coe_lt_top q)
    | ninf =>
      exact iff_of_false (by simp [pyLt]) (by simp only [ext2]; exact not_lt_bot)
  | pinf =>
    cases b with
    | nan => exact absurd rfl hb
    | fin r =>
      exact iff_of_false (by simp [pyLt])
        (by simp only [ext2]; exact not_lt.2 (WithBot.coe_le_coe.2 le_top))
    | pinf =>
      exact iff_of_false (by simp [pyLt]) (lt_irrefl _)
    | ninf =>
      exact iff_of_false (by simp [pyLt]) (by simp only [ext2]; exact not_lt_bot)
  | ninf =>
    cases b with
    | nan => exact absurd rfl hb
    | fin r =>
      simp only [pyLt, ext2, true_iff]
      exact WithBot.bot_lt_coe _
    | pinf =>
      simp only [pyLt, ext2, true_iff]
      exact WithBot.bot_lt_coe _
    | ninf =>
      exact iff_of_false (by simp [pyLt]) (lt_irrefl _)

lemma pyLt_false_iff {a b : PyF} (ha : a ≠ .nan) (hb : b ≠ .nan) :
    pyLt a b = false ↔ ext2 b ≤ ext2 a := by
  rw [← not_lt, ← pyLt_true_iff ha hb]
  simp

lemma ext2_inj {a b : PyF} (ha : a ≠ .nan) (hb : b ≠ .nan)
    (h : ext2 a = ext2 b) : a = b := by
  cases a <;> cases b <;>
    simp_all [ext2, WithBot.coe_eq_coe, WithTop.coe_eq_coe]

lemma pyMin_ne_nan {c x : PyF} (hc : c ≠ .nan) (hx : x ≠ .nan) :
    (if pyLt x c then x else c) ≠ .nan := by
  split_ifs <;> assumption

lemma pyMax_ne_nan {c x : PyF} (hc : c ≠ .nan) (hx : x ≠ .nan) :
    (if pyGt x c then x else c) ≠ .nan := by
  split_ifs <;> assumption

lemma ext2_pyMin {c x : PyF} (hc : c ≠ .nan) (hx : x ≠ .nan) :
    ext2 (if pyLt x c then x else c) = ext2 c ⊓ ext2 x := by
  by_cases h : pyLt x c = true
  · rw [if_pos h, inf_eq_right.2 ((pyLt_true_iff hx hc).1 h).le]
  · rw [if_neg h, inf_eq_left.2 ((pyLt_false_iff hx hc).1 (by simpa using h))]

lemma ext2_pyMax {c x : PyF} (hc : c ≠ .nan) (hx : x ≠ .nan) :
    ext2 (if pyGt x c then x else c) = ext2 c ⊔ ext2 x := by
  by_cases h : pyGt x c = true
  · have h' : pyLt c x = true := h
    rw [if_pos h, sup_eq_right.2 ((pyLt_true_iff hc hx).1 h').le]
  · have h' : pyLt c x = false := by simpa [pyGt] using h
    rw [if_neg h, sup_eq_left.2 ((pyLt_false_iff hc hx).1 h')]

/-! ### Helper lemmas on folded minima -/

lemma foldl_pick_mem {α : Type} (f : α → α → α)
    (hf : ∀ m x, f m x = m ∨ f m x = x) (cs : List α) :
    ∀ c : α, cs.foldl f c ∈ c :: cs := by
  induction cs with
  | nil => intro c; simp
  | cons x xs ih =>
    intro c
    simp only [List.foldl_cons]
    rcases List.mem_cons.1 (ih (f c x)) with h1 | h1
    · rw [h1]
      rcases hf c x with h2 | h2 <;> rw [h2] <;> simp
    · simp [h1]

lemma foldl_pyMin_notnan_le (cs : List PyF) : ∀ c : PyF, c ≠ .nan →
    (∀ x ∈ cs, x ≠ .nan) →
    cs.foldl (fun m x => if pyLt x m then x else m) c ≠ .nan
    ∧ ∀ u ∈ c :: cs,
        ext2 (cs.foldl (fun m x => if pyLt x m then x else m) c) ≤ ext2 u := by
  induction cs with
  | nil =>
    intro c hc _
    refine ⟨hc, ?_⟩
    intro u hu
    simp only [List.mem_singleton] at hu
    simp [hu]
  | cons x xs ih =>
    intro c hc hxs
    have hx : x ≠ .nan := hxs x (List.mem_cons_self x xs)
    have hxs' : ∀ y ∈ xs, y ≠ .nan := fun y hy => hxs y (List.mem_cons_of_mem x hy)
    obtain ⟨hne, hle⟩ := ih (if pyLt x c then x else c) (pyMin_ne_nan hc hx) hxs'
    refine ⟨by simpa [List.foldl_cons] using hne, ?_⟩
    intro u hu
    simp only [List.foldl_cons]
    have hacc := hle _ (List.mem_cons_self _ _)
    rw [ext2_pyMin hc hx] at hacc
    rcases List.mem_cons.1 hu with rfl | hu1
    · exact hacc.trans inf_le_left
    · rcases List.mem_cons.1 hu1 with rfl | hu2
      · exact hacc.trans inf_le_right
      · exact hle u (List.mem_cons_of_mem _ hu2)

lemma normCandidates_pos (p : WmProduct) :
    ∀ u ∈ normCandidates p, pyGt u (.fin 0) = true := by
  intro u hu
  simp only [normCandidates, List.mem_filterMap] at hu
  obtain ⟨f, -, hf⟩ := hu
  rcases h1 : presentNonNull p f with - | v <;> rw [h1] at hf
  · simp at hf
  · dsimp only at hf
    rcases h2 : toUsd v f with - | usd <;> rw [h2] at hf
    · simp at hf
    · by_cases hp : pyGt usd (.fin 0) = true
      · simp only [if_pos hp, Option.some.injEq] at hf
        exact hf ▸ hp
      · simp [if_neg hp] at hf

/-- C5 (amended): `_normalize_price` returns the *minimum* over all
candidate fields yielding a valid, strictly positive amount — its result
belongs to the candidate list, no candidate compares IEEE-smaller than it,
and it is strictly positive (the positivity filter `usd > 0` is an IEEE
comparison, so NaN values never become candidates) — while the inline
candidate loop of `aggregate_whitemarket` returns the first candidate field
whose `to_usd` value is non-`None` (no positivity filter), formalised as
`List.findSome?` over its field order. -/
theorem normalize_price_min_line_loop_first :
    (∀ (p : WmProduct) (v : PyF), normalize_price p = some v →
        v ∈ normCandidates p ∧ (∀ u ∈ normCandidates p, pyLt u v = false)
        ∧ pyGt v (.fin 0) = true)
    ∧ (∀ (p : WmProduct) (fs : List (List Char)),
        linePriceGo p fs = fs.findSome? (toUsdField p)) := by
  constructor
  · intro p v h
    unfold normalize_price at h
    rcases hc : normCandidates p with - | ⟨c, cs⟩ <;> rw [hc] at h
    · simp at h
    · simp only [Option.some.injEq] at h
      subst h
      have hpos : ∀ u ∈ c :: cs, pyGt u (.fin 0) = true := by
        intro u hu
        exact normCandidates_pos p u (hc ▸ hu)
      have hnn : ∀ u ∈ c :: cs, u ≠ .nan := by
        intro u hu
        exact (pyLt_ne_nan (hpos u hu)).2
      have hmem := foldl_pick_mem (fun m x => if pyLt x m then x else m)
        (fun m x => by by_cases h : pyLt x m = true <;> simp [h]) cs c
      obtain ⟨hne, hle⟩ := foldl_pyMin_notnan_le cs c
        (hnn c (List.mem_cons_self c cs))
        (fun y hy => hnn y (List.mem_cons_of_mem _ hy))
      refine ⟨hc ▸ hmem, ?_, hpos _ hmem⟩
      intro u hu
      have hu' : u ∈ c :: cs := hc ▸ hu
      exact (pyLt_false_iff (hnn u hu') hne).2 (hle u hu')
  · intro p fs
    induction fs with
    | nil => rfl
    | cons f fs ih =>
      rw [List.findSome?_cons]
      rcases h1 : presentNonNull p f with - | v
      · simp [linePriceGo, toUsdField, h1, ih]
      · rcases h2 : toUsd v f with - | usd <;>
          simp [linePriceGo, toUsdField, h1, h2, ih]

/-- C5 (witness): the amended theorem applied to the concrete two-field
product of the counterexample. -/
theorem normalize_price_min_witness :
    (PyF.fin 3 ∈ normCandidates p5ex
      ∧ (∀ u ∈ normCandidates p5ex, pyLt u (.fin 3) = false)
      ∧ pyGt (PyF.fin 3) (.fin 0) = true)
    ∧ linePriceGo p5ex linePriceFields = linePriceFields.findSome? (toUsdField p5ex) :=
  ⟨normalize_price_min_line_loop_first.1 p5ex (.fin 3) (by decide),
   normalize_price_min_line_loop_first.2 p5ex linePriceFields⟩

/-- C6 (amended): a shape-extraction strategy wins only by *completing
without error*, not by extracting at least one record: when the streaming
array strategy completes cleanly, its records are exactly the reader's
output and the NDJSON fallback is not attempted; when it raises — even
after partial output — the records already yielded are kept and the NDJSON
fallback's records are appended after them (which can re-yield records, as
the counterexample shows). -/
theorem strategy_first_clean_success_wins :
    ∀ cs : List Char,
      ((ijsonItems cs).2 = true →
        fetchCsfloat cs = (ijsonItems cs).1.filter JVal.isObjV)
      ∧ ((ijsonItems cs).2 = false →
        fetchCsfloat cs = (ijsonItems cs).1.filter JVal.isObjV ++ ndjsonDicts cs) := by
  intro cs
  constructor <;> intro h <;> simp [fetchCsfloat, h]

/-- C6 (witness): on a well-formed one-record array the strategy completes,
and the reader's output is exactly that record. -/
theorem strategy_first_clean_success_witness :
    fetchCsfloat okPayload = [JVal.obj [("a".data, JVal.i 1)]] :=
  ((strategy_first_clean_success_wins okPayload).1 rfl).trans rfl

/-- C8 (amended): the Batch Emitter invokes the collaborator on the chunks
in order up to and including the first failing one — chunks after a failure
are never attempted and no chunk is retried — and it propagates the first
failing chunk's error unchanged (`ok` when every chunk succeeds); the
count of successfully applied chunks is not part of the propagated value
(the counterexample shows runs with different counts propagate identical
failures). -/
theorem upsert_stops_at_first_failure {α E : Type} :
    ∀ (u : List α → Except E Unit) (rows : List α) (size : ℕ),
      upsertMarketRows u rows size =
        ((chunked rows size).take
            (((chunked rows size).takeWhile (fun c => (u c).isOk)).length + 1),
         ((chunked rows size).dropWhile (fun c => (u c).isOk)).head?.elim
            (Except.ok ()) u) := by
  intro u rows size
  suffices h : ∀ cs : List (List α),
      upsertGo u cs =
        (cs.take ((cs.takeWhile (fun c => (u c).isOk)).length + 1),
         (cs.dropWhile (fun c => (u c).isOk)).head?.elim (Except.ok ()) u) by
    exact h _
  intro cs
  induction cs with
  | nil => simp [upsertGo]
  | cons c cs ih =>
    cases h : u c with
    | error e =>
      simp [upsertGo, h, List.takeWhile_cons, List.dropWhile_cons, Except.isOk,
        Except.toBool]
    | ok u' =>
      cases u'
      simp [upsertGo, h, List.takeWhile_cons, List.dropWhile_cons, Except.isOk,
        Except.toBool, ih]

/-! ### Per-key characterisation of the aggregators -/

lemma mergeMinF_none_left (v : Option PyF) : mergeMinF none v = v := by
  cases v <;> rfl

lemma mergeMaxF_none_left (v : Option PyF) : mergeMaxF none v = v := by
  cases v <;> rfl

lemma mergeMinF_some_some (c p : PyF) :
    mergeMinF (some c) (some p) = some (if pyLt p c then p else c) := by
  by_cases h : pyLt p c = true
  · simp [mergeMinF, h]
  · simp [mergeMinF, h]

lemma mergeMaxF_some_some (c p : PyF) :
    mergeMaxF (some c) (some p) = some (if pyGt p c then p else c) := by
  by_cases h : pyGt p c = true
  · simp [mergeMaxF, h]
  · simp [mergeMaxF, h]

/-- The listing-price merge is right-commutative as long as the two merged
values are not NaN — the stored value may be anything, a stored NaN being
absorbing (nothing ever replaces it, since `x < nan` is `False`).  This is
exactly the hypothesis that fails in the C2 counterexample, where a NaN is
*merged in*. -/
lemma mergeMinF_right_comm (z a b : Option PyF)
    (ha : a ≠ some .nan) (hb : b ≠ some .nan) :
    mergeMinF (mergeMinF z a) b = mergeMinF (mergeMinF z b) a := by
  rcases a with - | p
  · rfl
  · rcases b with - | q
    · rfl
    · have hp : p ≠ .nan := fun h => ha (by rw [h])
      have hq : q ≠ .nan := fun h => hb (by rw [h])
      rcases z with - | c
      · rw [mergeMinF_none_left, mergeMinF_none_left, mergeMinF_some_some,
          mergeMinF_some_some]
        exact congrArg some (ext2_inj (pyMin_ne_nan hp hq) (pyMin_ne_nan hq hp)
          (by rw [ext2_pyMin hp hq, ext2_pyMin hq hp, inf_comm]))
      · by_cases hc : c = .nan
        · subst hc
          have e1 : mergeMinF (some PyF.nan) (some p) = some .nan := by
            rw [mergeMinF_some_some, pyLt_nan_right]
            rfl
          have e2 : mergeMinF (some PyF.nan) (some q) = some .nan := by
            rw [mergeMinF_some_some, pyLt_nan_right]
            rfl
          rw [e1, e2, e1]
        · rw [mergeMinF_some_some, mergeMinF_some_some, mergeMinF_some_some,
            mergeMinF_some_some]
          exact congrArg some (ext2_inj
            (pyMin_ne_nan (pyMin_ne_nan hc hp) hq)
            (pyMin_ne_nan (pyMin_ne_nan hc hq) hp)
            (by rw [ext2_pyMin (pyMin_ne_nan hc hp) hq, ext2_pyMin hc hp,
                ext2_pyMin (pyMin_ne_nan hc hq) hp, ext2_pyMin hc hq,
                inf_right_comm]))

/-- The buy-order merge is right-commutative under the same no-NaN
hypothesis on the merged values. -/
lemma mergeMaxF_right_comm (z a b : Option PyF)
    (ha : a ≠ some .nan) (hb : b ≠ some .nan) :
    mergeMaxF (mergeMaxF z a) b = mergeMaxF (mergeMaxF z b) a := by
  rcases a with - | p
  · rfl
  · rcases b with - | q
    · rfl
    · have hp : p ≠ .nan := fun h => ha (by rw [h])
      have hq : q ≠ .nan := fun h => hb (by rw [h])
      rcases z with - | c
      · rw [mergeMaxF_none_left, mergeMaxF_none_left, mergeMaxF_some_some,
          mergeMaxF_some_some]
        exact congrArg some (ext2_inj (pyMax_ne_nan hp hq) (pyMax_ne_nan hq hp)
          (by rw [ext2_pyMax hp hq, ext2_pyMax hq hp, sup_comm]))
      · by_cases hc : c = .nan
        · subst hc
          have e1 : mergeMaxF (some PyF.nan) (some p) = some .nan := by
            rw [mergeMaxF_some_some]
            have h : pyGt p PyF.nan = false := pyLt_nan_left p
            rw [h]
            rfl
          have e2 : mergeMaxF (some PyF.nan) (some q) = some .nan := by
            rw [mergeMaxF_some_some]
            have h : pyGt q PyF.nan = false := pyLt_nan_left q
            rw [h]
            rfl
          rw [e1, e2, e1]
        · rw [mergeMaxF_some_some, mergeMaxF_some_some, mergeMaxF_some_some,
            mergeMaxF_some_some]
          exact congrArg some (ext2_inj
            (pyMax_ne_nan (pyMax_ne_nan hc hp) hq)
            (pyMax_ne_nan (pyMax_ne_nan hc hq) hp)
            (by rw [ext2_pyMax (pyMax_ne_nan hc hp) hq, ext2_pyMax hc hp,
                ext2_pyMax (pyMax_ne_nan hc hq) hp, ext2_pyMax hc hq,
                sup_right_comm]))

lemma aggregate_cs_filter (now : ℕ) (l : List CsRaw)
    (acc : List Char → Option CsRec) (k : List Char) :
    (l.foldl (csStep now) acc) k =
      csApply now (acc k) (l.filter (fun it => csKey it = k)) := by
  induction l generalizing acc with
  | nil => rfl
  | cons it l ih =>
    simp only [List.foldl_cons, List.filter_cons]
    by_cases h : csKey it = k
    · subst h
      rw [if_pos (by simp), ih]
      have hstep : (csStep now acc it) (csKey it) =
          some (match acc (csKey it) with
                | none => csSeed now it
                | some rec => csMerge rec it) := by
        simp [csStep]
      rw [hstep]
      rfl
    · rw [if_neg (by simpa using h), ih]
      have hstep : (csStep now acc it) k = acc k := by
        simp only [csStep]
        rw [if_neg (fun hk => h hk.symm)]
      rw [hstep]

lemma csApply_some (now : ℕ) (l : List CsRaw) : ∀ rec : CsRec,
    csApply now (some rec) l =
      some { rec with
             price_csfloat :=
               l.foldl (fun c it => mergeMinF c (csPrice it)) rec.price_csfloat
             qty_csfloat := rec.qty_csfloat + (l.map csQty).sum } := by
  induction l with
  | nil => intro rec; simp [csApply]
  | cons it l ih =>
    intro rec
    have h0 : csApply now (some rec) (it :: l) =
        csApply now (some (csMerge rec it)) l := rfl
    rw [h0, ih]
    simp only [List.foldl_cons, List.map_cons, List.sum_cons, Option.some.injEq]
    cases rec
    simp [csMerge, mergeMinF, add_assoc]

/-- The aggregation table at a key, in closed form: `none` iff no record
maps to that key, otherwise the first such record seeds the entry and the
rest merge into it (min price, summed qty). -/
lemma aggregate_cs_eq (now : ℕ) (l : List CsRaw) (k : List Char) :
    aggregate_csfloat now l k =
      match l.filter (fun it => csKey it = k) with
      | [] => none
      | x :: fl =>
        some { csSeed now x with
               price_csfloat :=
                 fl.foldl (fun c it => mergeMinF c (csPrice it)) (csPrice x)
               qty_csfloat := csQty x + (fl.map csQty).sum } := by
  rw [aggregate_csfloat, aggregate_cs_filter]
  rcases l.filter (fun it => csKey it = k) with - | ⟨x, fl⟩
  · rfl
  · have h0 : csApply now none (x :: fl) =
        csApply now (some (csSeed now x)) fl := rfl
    rw [h0, csApply_some]
    rfl

lemma aggregate_buff_filter (now : ℕ) (l : List BuffRaw)
    (acc : List Char → Option BuffRec) (k : List Char) :
    (l.foldl (buffStep now) acc) k =
      buffApply now (acc k) (l.filter (fun r => buffKey r = k)) := by
  induction l generalizing acc with
  | nil => rfl
  | cons r l ih =>
    simp only [List.foldl_cons, List.filter_cons]
    by_cases h : buffKey r = k
    · subst h
      rw [if_pos (by simp), ih]
      have hstep : (buffStep now acc r) (buffKey r) =
          some (match acc (buffKey r) with
                | none => buffSeed now r
                | some rec => buffMerge rec r) := by
        simp [buffStep]
      rw [hstep]
      rfl
    · rw [if_neg (by simpa using h), ih]
      have hstep : (buffStep now acc r) k = acc k := by
        simp only [buffStep]
        rw [if_neg (fun hk => h hk.symm)]
      rw [hstep]

lemma buffApply_some (now : ℕ) (l : List BuffRaw) : ∀ rec : BuffRec,
    buffApply now (some rec) l =
      some { rec with
             price_buff163 :=
               l.foldl (fun c r => mergeMinF c (buffStart r)) rec.price_buff163
             highest_offer_buff163 :=
               l.foldl (fun c r => mergeMaxF c (buffBuy r)) rec.highest_offer_buff163 } := by
  induction l with
  | nil => intro rec; simp [buffApply]
  | cons r l ih =>
    intro rec
    have h0 : buffApply now (some rec) (r :: l) =
        buffApply now (some (buffMerge rec r)) l := rfl
    rw [h0, ih]
    simp only [List.foldl_cons, Option.some.injEq]
    cases rec
    simp [buffMerge, mergeMinF, mergeMaxF]

lemma aggregate_buff_eq (now : ℕ) (l : List BuffRaw) (k : List Char) :
    aggregate_buff163 now l k =
      match l.filter (fun r => buffKey r = k) with
      | [] => none
      | x :: fl =>
        some { buffSeed now x with
               price_buff163 :=
                 fl.foldl (fun c r => mergeMinF c (buffStart r)) (buffStart x)
               highest_offer_buff163 :=
                 fl.foldl (fun c r => mergeMaxF c (buffBuy r)) (buffBuy x) } := by
  rw [aggregate_buff163, aggregate_buff_filter]
  rcases l.filter (fun r => buffKey r = k) with - | ⟨x, fl⟩
  · rfl
  · have h0 : buffApply now none (x :: fl) =
        buffApply now (some (buffSeed now x)) fl := rfl
    rw [h0, buffApply_some]
    rfl

/-- Once the listing-price accumulator holds `some p`, merging any further
stream of values keeps it `some`, and the final value never compares
IEEE-greater than `p` (a stored NaN stays put, since nothing compares
smaller than it). -/
lemma foldl_mergeMinF_stays (ws : List (Option PyF)) : ∀ p : PyF,
    ∃ q, ws.foldl mergeMinF (some p) = some q ∧ pyLt p q = false := by
  induction ws with
  | nil => exact fun p => ⟨p, rfl, pyLt_irrefl p⟩
  | cons w ws ih =>
    intro p
    simp only [List.foldl_cons]
    rcases w with - | x
    · exact ih p
    · rw [mergeMinF_some_some]
      by_cases hx : pyLt x p = true
      · rw [if_pos hx]
        obtain ⟨q, hq, hle⟩ := ih x
        refine ⟨q, hq, ?_⟩
        obtain ⟨hxn, hpn⟩ := pyLt_ne_nan hx
        by_cases hqn : q = .nan
        · rw [hqn]
          exact pyLt_nan_right p
        · exact (pyLt_false_iff hpn hqn).2
            (le_trans ((pyLt_false_iff hxn hqn).1 hle)
              ((pyLt_true_iff hxn hpn).1 hx).le)
      · rw [if_neg hx]
        exact ih p

/-- The buy-order counterpart: the accumulator stays `some`, and the final
value never compares IEEE-smaller than the stored `p`. -/
lemma foldl_mergeMaxF_stays (ws : List (Option PyF)) : ∀ p : PyF,
    ∃ q, ws.foldl mergeMaxF (some p) = some q ∧ pyLt q p = false := by
  induction ws with
  | nil => exact fun p => ⟨p, rfl, pyLt_irrefl p⟩
  | cons w ws ih =>
    intro p
    simp only [List.foldl_cons]
    rcases w with - | x
    · exact ih p
    · rw [mergeMaxF_some_some]
      by_cases hx : pyGt x p = true
      · rw [if_pos hx]
        obtain ⟨q, hq, hle⟩ := ih x
        refine ⟨q, hq, ?_⟩
        have hx' : pyLt p x = true := hx
        obtain ⟨hpn, hxn⟩ := pyLt_ne_nan hx'
        by_cases hqn : q = .nan
        · rw [hqn]
          exact pyLt_nan_left p
        · exact (pyLt_false_iff hqn hpn).2
            (le_trans ((pyLt_true_iff hpn hxn).1 hx').le
              ((pyLt_false_iff hqn hxn).1 hle))
      · rw [if_neg hx]
        exact ih p

/-- C2 (counterexample): aggregation merging is *not* order-independent.
A record whose `min_price` is the string `"nan"` gets the price
`float("nan")`, and every IEEE comparison against NaN is `False`: merged
after a 5.0-priced duplicate it cannot replace the stored 5.0, but seeded
first it can never be replaced either — so the two orders of the same two
records store NaN resp. 5.0 at the same key. -/
theorem aggregation_order_dependent_with_nan :
    csPrice itNan = some .nan
    ∧ csPrice itFive = some (.fin 5)
    ∧ csKey itNan = csKey itFive
    ∧ [itNan, itFive].Perm [itFive, itNan]
    ∧ (aggregate_csfloat 7 [itNan, itFive] (csKey itFive)).map (·.price_csfloat)
        = some (some .nan)
    ∧ (aggregate_csfloat 7 [itFive, itNan] (csKey itFive)).map (·.price_csfloat)
        = some (some (.fin 5))
    ∧ some (some PyF.nan) ≠ some (some (PyF.fin 5)) :=
  ⟨by decide, by decide, by decide, List.Perm.swap itFive itNan [],
   by decide, by decide, by decide⟩

/-- C2 (amended): within one (non-flushed) aggregation window, merging is
order-independent *as long as no record carries a NaN price* (the
counterexample shows a NaN breaks it): for every permutation of the raw
records the per-key listing price of `aggregate_csfloat` agrees when no
record parses to a NaN price, its per-key summed quantity agrees
unconditionally, and likewise the per-key min-ask and max-bid channels of
`aggregate_buff163` agree under the respective no-NaN hypotheses; moreover
a stored non-`None` price is never replaced by a `None` price from later
records, in both aggregators and on both buff163 channels — the csfloat
and buff163 listing price can only stay or IEEE-decrease, the buff163 bid
only stay or IEEE-increase. -/
theorem aggregation_merge_nanfree_order_independent :
    (∀ (now : ℕ) (l l' : List CsRaw), l.Perm l' → ∀ k : List Char,
        ((∀ it ∈ l, csPrice it ≠ some .nan) →
          (aggregate_csfloat now l k).map (·.price_csfloat)
            = (aggregate_csfloat now l' k).map (·.price_csfloat))
      ∧ (aggregate_csfloat now l k).map (·.qty_csfloat)
          = (aggregate_csfloat now l' k).map (·.qty_csfloat))
    ∧ (∀ (now : ℕ) (l l' : List BuffRaw), l.Perm l' → ∀ k : List Char,
        ((∀ r ∈ l, buffStart r ≠ some .nan) →
          (aggregate_buff163 now l k).map (·.price_buff163)
            = (aggregate_buff163 now l' k).map (·.price_buff163))
      ∧ ((∀ r ∈ l, buffBuy r ≠ some .nan) →
          (aggregate_buff163 now l k).map (·.highest_offer_buff163)
            = (aggregate_buff163 now l' k).map (·.highest_offer_buff163)))
    ∧ (∀ (now : ℕ) (l rest : List CsRaw) (k : List Char) (rec : CsRec) (p : PyF),
        aggregate_csfloat now l k = some rec → rec.price_csfloat = some p →
        ∃ rec' q, aggregate_csfloat now (l ++ rest) k = some rec'
          ∧ rec'.price_csfloat = some q ∧ pyLt p q = false)
    ∧ (∀ (now : ℕ) (l rest : List BuffRaw) (k : List Char) (rec : BuffRec),
        aggregate_buff163 now l k = some rec →
        (∀ p : PyF, rec.price_buff163 = some p →
          ∃ rec' q, aggregate_buff163 now (l ++ rest) k = some rec'
            ∧ rec'.price_buff163 = some q ∧ pyLt p q = false)
        ∧ (∀ p : PyF, rec.highest_offer_buff163 = some p →
          ∃ rec' q, aggregate_buff163 now (l ++ rest) k = some rec'
            ∧ rec'.highest_offer_buff163 = some q ∧ pyLt q p = false)) := by
  refine ⟨?_, ?_, ?_, ?_⟩
  · intro now l l' hperm k
    have hf := hperm.filter (fun it => csKey it = k)
    rw [aggregate_cs_eq, aggregate_cs_eq]
    rcases h1 : l.filter (fun it => csKey it = k) with - | ⟨x, fl⟩ <;>
      rcases h2 : l'.filter (fun it => csKey it = k) with - | ⟨y, gl⟩ <;>
      rw [h1, h2] at hf
    · exact ⟨fun _ => rfl, rfl⟩
    · exact absurd hf.symm.eq_nil (List.cons_ne_nil y gl)
    · exact absurd hf.eq_nil (List.cons_ne_nil x fl)
    · constructor
      · intro hnan
        show some (fl.foldl (fun c it => mergeMinF c (csPrice it)) (csPrice x))
          = some (gl.foldl (fun c it => mergeMinF c (csPrice it)) (csPrice y))
        have e1 : fl.foldl (fun c it => mergeMinF c (csPrice it)) (csPrice x)
            = (x :: fl).foldl (fun c it => mergeMinF c (csPrice it)) none := by
          simp [List.foldl_cons, mergeMinF_none_left]
        have e2 : gl.foldl (fun c it => mergeMinF c (csPrice it)) (csPrice y)
            = (y :: gl).foldl (fun c it => mergeMinF c (csPrice it)) none := by
          simp [List.foldl_cons, mergeMinF_none_left]
        rw [e1, e2]
        exact congrArg some
          (hf.foldl_eq'
            (fun a hma b hmb z => mergeMinF_right_comm z (csPrice a) (csPrice b)
              (hnan a (List.mem_of_mem_filter
                (show a ∈ l.filter (fun it => csKey it = k) by rw [h1]; exact hma)))
              (hnan b (List.mem_of_mem_filter
                (show b ∈ l.filter (fun it => csKey it = k) by rw [h1]; exact hmb))))
            none)
      · show some (csQty x + (fl.map csQty).sum)
          = some (csQty y + (gl.map csQty).sum)
        have hsum := (hf.map csQty).sum_eq
        simp only [List.map_cons, List.sum_cons] at hsum
        exact congrArg some hsum
  · intro now l l' hperm k
    have hf := hperm.filter (fun r => buffKey r = k)
    rw [aggregate_buff_eq, aggregate_buff_eq]
    rcases h1 : l.filter (fun r => buffKey r = k) with - | ⟨x, fl⟩ <;>
      rcases h2 : l'.filter (fun r => buffKey r = k) with - | ⟨y, gl⟩ <;>
      rw [h1, h2] at hf
    · exact ⟨fun _ => rfl, fun _ => rfl⟩
    · exact absurd hf.symm.eq_nil (List.cons_ne_nil y gl)
    · exact absurd hf.eq_nil (List.cons_ne_nil x fl)
    · constructor
      · intro hnan
        show some (fl.foldl (fun c r => mergeMinF c (buffStart r)) (buffStart x))
          = some (gl.foldl (fun c r => mergeMinF c (buffStart r)) (buffStart y))
        have e1 : fl.foldl (fun c r => mergeMinF c (buffStart r)) (buffStart x)
            = (x :: fl).foldl (fun c r => mergeMinF c (buffStart r)) none := by
          simp [List.foldl_cons, mergeMinF_none_left]
        have e2 : gl.foldl (fun c r => mergeMinF c (buffStart r)) (buffStart y)
            = (y :: gl).foldl (fun c r => mergeMinF c (buffStart r)) none := by
          simp [List.foldl_cons, mergeMinF_none_left]
        rw [e1, e2]
        exact congrArg some
          (hf.foldl_eq'
            (fun a hma b hmb z => mergeMinF_right_comm z (buffStart a) (buffStart b)
              (hnan a (List.mem_of_mem_filter
                (show a ∈ l.filter (fun r => buffKey r = k) by rw [h1]; exact hma)))
              (hnan b (List.mem_of_mem_filter
                (show b ∈ l.filter (fun r => buffKey r = k) by rw [h1]; exact hmb))))
            none)
      · intro hnan
        show some (fl.foldl (fun c r => mergeMaxF c (buffBuy r)) (buffBuy x))
          = some (gl.foldl (fun c r => mergeMaxF c (buffBuy r)) (buffBuy y))
        have e1 : fl.foldl (fun c r => mergeMaxF c (buffBuy r)) (buffBuy x)
            = (x :: fl).foldl (fun c r => mergeMaxF c (buffBuy r)) none := by
          simp [List.foldl_cons, mergeMaxF_none_left]
        have e2 : gl.foldl (fun c r => mergeMaxF c (buffBuy r)) (buffBuy y)
            = (y :: gl).foldl (fun c r => mergeMaxF c (buffBuy r)) none := by
          simp [List.foldl_cons, mergeMaxF_none_left]
        rw [e1, e2]
        exact congrArg some
          (hf.foldl_eq'
            (fun a hma b hmb z => mergeMaxF_right_comm z (buffBuy a) (buffBuy b)
              (hnan a (List.mem_of_mem_filter
                (show a ∈ l.filter (fun r => buffKey r = k) by rw [h1]; exact hma)))
              (hnan b (List.mem_of_mem_filter
                (show b ∈ l.filter (fun r => buffKey r = k) by rw [h1]; exact hmb))))
            none)
  · intro now l rest k rec p h1 h2
    rw [aggregate_cs_eq] at h1
    rcases hfl : l.filter (fun it => csKey it = k) with - | ⟨x, fl⟩ <;>
      rw [hfl] at h1
    · exact absurd h1 (by simp)
    · have hrec := Option.some.inj h1
      have hp : fl.foldl (fun c it => mergeMinF c (csPrice it)) (csPrice x) = some p := by
        have := congrArg CsRec.price_csfloat hrec
        simpa [h2] using this
      obtain ⟨q, hq, hle⟩ :=
        foldl_mergeMinF_stays ((rest.filter (fun it => csKey it = k)).map csPrice) p
      rw [List.foldl_map] at hq
      refine ⟨{ csSeed now x with
                price_csfloat :=
                  (fl ++ rest.filter (fun it => csKey it = k)).foldl
                    (fun c it => mergeMinF c (csPrice it)) (csPrice x)
                qty_csfloat :=
                  csQty x + ((fl ++ rest.filter (fun it => csKey it = k)).map csQty).sum },
              q, ?_, ?_, hle⟩
      · rw [aggregate_cs_eq, List.filter_append, hfl, List.cons_append]
      · show (fl ++ rest.filter (fun it => csKey it = k)).foldl
            (fun c it => mergeMinF c (csPrice it)) (csPrice x) = some q
        rw [List.foldl_append, hp, hq]
  · intro now l rest k rec h1
    rw [aggregate_buff_eq] at h1
    rcases hfl : l.filter (fun r => buffKey r = k) with - | ⟨x, fl⟩ <;>
      rw [hfl] at h1
    · exact absurd h1 (by simp)
    · have hrec := Option.some.inj h1
      constructor
      · intro p h2
        have hp : fl.foldl (fun c r => mergeMinF c (buffStart r)) (buffStart x)
            = some p := by
          have := congrArg BuffRec.price_buff163 hrec
          simpa [h2] using this
        obtain ⟨q, hq, hle⟩ :=
          foldl_mergeMinF_stays ((rest.filter (fun r => buffKey r = k)).map buffStart) p
        rw [List.foldl_map] at hq
        refine ⟨{ buffSeed now x with
                  price_buff163 :=
                    (fl ++ rest.filter (fun r => buffKey r = k)).foldl
                      (fun c r => mergeMinF c (buffStart r)) (buffStart x)
                  highest_offer_buff163 :=
                    (fl ++ rest.filter (fun r => buffKey r = k)).foldl
                      (fun c r => mergeMaxF c (buffBuy r)) (buffBuy x) },
                q, ?_, ?_, hle⟩
        · rw [aggregate_buff_eq, List.filter_append, hfl, List.cons_append]
        · show (fl ++ rest.filter (fun r => buffKey r = k)).foldl
              (fun c r => mergeMinF c (buffStart r)) (buffStart x) = some q
          rw [List.foldl_append, hp, hq]
      · intro p h2
        have hp : fl.foldl (fun c r => mergeMaxF c (buffBuy r)) (buffBuy x)
            = some p := by
          have := congrArg BuffRec.highest_offer_buff163 hrec
          simpa [h2] using this
        obtain ⟨q, hq, hle⟩ :=
          foldl_mergeMaxF_stays ((rest.filter (fun r => buffKey r = k)).map buffBuy) p
        rw [List.foldl_map] at hq
        refine ⟨{ buffSeed now x with
                  price_buff163 :=
                    (fl ++ rest.filter (fun r => buffKey r = k)).foldl
                      (fun c r => mergeMinF c (buffStart r)) (buffStart x)
                  highest_offer_buff163 :=
                    (fl ++ rest.filter (fun r => buffKey r = k)).foldl
                      (fun c r => mergeMaxF c (buffBuy r)) (buffBuy x) },
                q, ?_, ?_, hle⟩
        · rw [aggregate_buff_eq, List.filter_append, hfl, List.cons_append]
        · show (fl ++ rest.filter (fun r => buffKey r = k)).foldl
              (fun c r => mergeMaxF c (buffBuy r)) (buffBuy x) = some q
          rw [List.foldl_append, hp, hq]

/-- C2 (witness): the amended theorem applied to two concrete NaN-free
duplicate-keyed csfloat items — swapping them leaves the per-key price
unchanged, and its value evaluates to the minimum 12.50 USD of the two. -/
theorem aggregation_merge_nanfree_witness :
    (aggregate_csfloat 7 [it7a, it7b] (csKey it7a)).map (·.price_csfloat)
      = (aggregate_csfloat 7 [it7b, it7a] (csKey it7a)).map (·.price_csfloat)
    ∧ (aggregate_csfloat 7 [it7a, it7b] (csKey it7a)).map (·.price_csfloat)
      = some (some (.fin (1250 / 100))) :=
  ⟨(aggregation_merge_nanfree_order_independent.1 7 [it7a, it7b] [it7b, it7a]
      (List.Perm.swap it7b it7a []) (csKey it7a)).1 (by decide),
   by decide⟩

lemma csKey_of_empty_name (r : CsRaw)
    (h : r.market_hash_name = none ∨ r.market_hash_name = some JVal.null
      ∨ r.market_hash_name = some (JVal.s [])) : csKey r = [] := by
  have hn : csNameStr r = [] := by
    rcases h with h | h | h <;> rw [csNameStr, h] <;> rfl
  simp only [csKey, csParsed, hn]
  decide

/-- C10: the empty name parses to the all-absent identity, whose key is the
empty string; raw csfloat records with a missing, `None` or empty name are
therefore not skipped but all merged into the single canonical record at
key `""` (no other key is populated, and its quantity is the sum over all
such records). -/
theorem empty_name_merges_to_empty_key :
    parse_market_hash_name [] = ⟨[], false, false, none⟩
    ∧ buildItemKey [] false false none none = []
    ∧ ∀ (now : ℕ) (l : List CsRaw),
        (∀ r ∈ l, r.market_hash_name = none ∨ r.market_hash_name = some JVal.null
          ∨ r.market_hash_name = some (JVal.s [])) →
        (∀ k : List Char, k ≠ [] → aggregate_csfloat now l k = none)
        ∧ (l ≠ [] → ∃ rec, aggregate_csfloat now l [] = some rec
            ∧ rec.qty_csfloat = (l.map csQty).sum) := by
  refine ⟨rfl, rfl, ?_⟩
  intro now l hl
  constructor
  · intro k hk
    rw [aggregate_cs_eq]
    have hfilter : l.filter (fun it => csKey it = k) = [] := by
      rw [List.filter_eq_nil_iff]
      intro r hr
      rw [csKey_of_empty_name r (hl r hr)]
      simpa using hk
    rw [hfilter]
  · intro hne
    rw [aggregate_cs_eq]
    have hfilter : l.filter (fun it => csKey it = []) = l := by
      rw [List.filter_eq_self]
      intro r hr
      simpa using csKey_of_empty_name r (hl r hr)
    rw [hfilter]
    rcases l with - | ⟨x, xs⟩
    · exact absurd rfl hne
    · exact ⟨_, rfl, by simp [List.map_cons, List.sum_cons]⟩

/-- C10 (witness): two concrete records — name key absent resp. empty —
merge into the single record at key `""` with quantity 2 + 3 = 5, while a
non-empty key holds nothing. -/
theorem empty_name_merges_witness :
    aggregate_csfloat 5 l10 "AK".data = none
    ∧ ∃ rec, aggregate_csfloat 5 l10 [] = some rec ∧ rec.qty_csfloat = 5 := by
  have hnames : ∀ r ∈ l10, r.market_hash_name = none
      ∨ r.market_hash_name = some JVal.null
      ∨ r.market_hash_name = some (JVal.s []) := by
    intro r hr
    simp only [l10, List.mem_cons, List.not_mem_nil, or_false] at hr
    rcases hr with rfl | rfl
    · left; rfl
    · right; right; rfl
  have h := (empty_name_merges_to_empty_key.2.2 5 l10 hnames)
  refine ⟨h.1 "AK".data (by decide), ?_⟩
  obtain ⟨rec, hrec, hqty⟩ := h.2 (by simp [l10])
  exact ⟨rec, hrec, by rw [hqty]; decide⟩

/-! ### Condition-suffix stripping (C9) -/

/-- C9 (counterexample): on a name stacking two condition suffixes, the
first run strips only the outermost one, so the second run detects a
condition again — condition-suffix stripping is not idempotent on all raw
names. -/
theorem condition_strip_not_idempotent :
    (parse_market_hash_name "A (Factory New) (Factory New)".data).base
      = "A (Factory New)".data
    ∧ (parse_market_hash_name
        ((parse_market_hash_name "A (Factory New) (Factory New)".data).base)).condition
      = some "Factory New".data := by
  constructor <;> rfl

lemma mem_pyStrip {a : Char} {l : List Char} (h : a ∈ pyStrip l) : a ∈ l := by
  rw [pyStrip, List.mem_reverse] at h
  have h1 := (List.dropWhile_sublist (l := (l.dropWhile isPySpace).reverse) isPySpace).subset h
  rw [List.mem_reverse] at h1
  exact (List.dropWhile_sublist isPySpace).subset h1

lemma mem_replaceSubGo {a : Char} (pat : List Char) :
    ∀ (fuel : ℕ) (l : List Char), a ∈ replaceSubGo pat [] fuel l → a ∈ l := by
  intro fuel
  induction fuel with
  | zero => intro l h; exact h
  | succ fuel ih =>
    intro l h
    match l with
    | [] => exact h
    | c :: rest =>
      rw [replaceSubGo] at h
      by_cases hp : (pat.isPrefixOf (c :: rest) && !pat.isEmpty) = true
      · rw [if_pos hp] at h
        simp only [List.nil_append] at h
        exact List.mem_cons_of_mem c
          (List.drop_subset (pat.length - 1) rest (ih _ h))
      · rw [if_neg hp] at h
        rcases List.mem_cons.1 h with rfl | h1
        · exact List.mem_cons_self a rest
        · exact List.mem_cons_of_mem c (ih _ h1)

lemma mem_replaceSub {a : Char} {pat l : List Char}
    (h : a ∈ replaceSub pat [] l) : a ∈ l :=
  mem_replaceSubGo pat l.length l h

/-- For a non-empty input, the detected condition is exactly the first
condition whose parenthetical is a suffix of the input. -/
lemma parse_condition_eq (s : List Char) (hs : s ≠ []) :
    (parse_market_hash_name s).condition
      = CONDITION_NAMES.find? (fun cond => (condSuffix cond).isSuffixOf s) := by
  rw [parse_market_hash_name, if_neg hs]
  cases hf : CONDITION_NAMES.find? (fun cond => (condSuffix cond).isSuffixOf s) <;>
    simp [hf]

/-- The condition detected by `parse_market_hash_name` is absent exactly
when no condition parenthetical is a suffix of the input. -/
lemma parse_condition_none_iff (s : List Char) :
    (parse_market_hash_name s).condition = none ↔
      ∀ c ∈ CONDITION_NAMES, ¬ ((condSuffix c).isSuffixOf s = true) := by
  by_cases hs : s = []
  · subst hs
    decide
  · rw [parse_condition_eq s hs]
    constructor
    · intro h c hcmem
      simpa using List.find?_eq_none.1 h c hcmem
    · intro hall
      rw [List.find?_eq_none]
      intro c hcmem
      simpa using hall c hcmem

/-- Two suffixes of the same list are suffix-comparable. -/
lemma suffix_or_suffix {u v w : List Char} (h1 : u <:+ w) (h2 : v <:+ w) :
    u <:+ v ∨ v <:+ u := by
  rcases List.prefix_or_prefix_of_prefix
      ( List.reverse_prefix.2 h1) ( List.reverse_prefix.2 h2) with h | h
  · exact Or.inl ( List.reverse_prefix.1 h)
  · exact Or.inr ( List.reverse_prefix.1 h)

/-- Distinct condition parentheticals are never suffixes of one another
(verified over the fixed enumeration). -/
lemma condSuffix_unique :
    ∀ c' ∈ CONDITION_NAMES, ∀ c ∈ CONDITION_NAMES,
      (condSuffix c' <:+ condSuffix c ∨ condSuffix c <:+ condSuffix c') →
      c' = c := by
  decide

lemma find?_eq_some_of_unique {α : Type} (p : α → Bool) :
    ∀ (L : List α) (c : α), c ∈ L → p c = true →
      (∀ c' ∈ L, p c' = true → c' = c) → L.find? p = some c := by
  intro L c hc hp huniq
  induction L with
  | nil => cases hc
  | cons a L ih =>
    by_cases ha : p a = true
    · rw [List.find?_cons_of_pos _ ha]
      exact congrArg some (huniq a (List.mem_cons_self a L) ha)
    · rw [List.find?_cons_of_neg _ ha]
      rcases List.mem_cons.1 hc with rfl | hc1
      · exact absurd hp ha
      · exact ih hc1 (fun c' h' hp' => huniq c' (List.mem_cons_of_mem _ h') hp')

/-- C9 (amended): re-running detection on a first run's base detects no
condition **iff** that base does not itself end with a condition
parenthetical — the first run can leave such a suffix when the raw name
stacks several of them; in particular, for every name built from a
`'('`-free base followed by a single condition suffix, the second run
detects nothing (idempotence holds on such names). -/
theorem condition_strip_idempotent_iff :
    (∀ name : List Char,
        (parse_market_hash_name ((parse_market_hash_name name).base)).condition = none
        ↔ ∀ c ∈ CONDITION_NAMES,
            ¬ ((condSuffix c).isSuffixOf ((parse_market_hash_name name).base) = true))
    ∧ (∀ (b c : List Char), c ∈ CONDITION_NAMES → '(' ∉ b →
        (parse_market_hash_name
          ((parse_market_hash_name (b ++ condSuffix c)).base)).condition = none) := by
  constructor
  · intro name
    exact parse_condition_none_iff _
  · intro b c hc hb
    have hne : b ++ condSuffix c ≠ [] := by simp [condSuffix]
    have hfind : CONDITION_NAMES.find?
        (fun cond => (condSuffix cond).isSuffixOf (b ++ condSuffix c)) = some c := by
      apply find?_eq_some_of_unique _ _ _ hc
      · exact (List.isSuffixOf_iff_suffix).2 (List.suffix_append b (condSuffix c))
      · intro c' hc' hp'
        have h1 : condSuffix c' <:+ b ++ condSuffix c :=
          (List.isSuffixOf_iff_suffix).1 hp'
        have h2 : condSuffix c <:+ b ++ condSuffix c :=
          List.suffix_append b (condSuffix c)
        exact condSuffix_unique c' hc' c hc (suffix_or_suffix h1 h2)
    have hlen : (b ++ condSuffix c).length - (c.length + 2) = b.length := by
      simp only [List.length_append, condSuffix, List.length_cons]
      simp
    have hbase1 : (parse_market_hash_name (b ++ condSuffix c)).base
        = pyStrip (replaceSub "Souvenir ".data []
            (replaceSub "StatTrak ".data []
              (replaceSub "StatTrak™ ".data [] (pyStrip b)))) := by
      rw [parse_market_hash_name]
      simp only [if_neg hne, hfind, hlen, List.take_left]
    have hparen : '(' ∉ (parse_market_hash_name (b ++ condSuffix c)).base := by
      rw [hbase1]
      intro hmem
      exact hb (mem_pyStrip (mem_replaceSub (mem_replaceSub (mem_replaceSub
        (mem_pyStrip hmem)))))
    rw [parse_condition_none_iff]
    intro c' hc' hsuf
    exact hparen (((List.isSuffixOf_iff_suffix).1 hsuf).subset
      (by simp [condSuffix]))

/-- C9 (witness): the amended theorem applied to a concrete well-formed
name with a single condition suffix. -/
theorem condition_strip_idempotent_witness :
    (parse_market_hash_name
      ((parse_market_hash_name
        ("AK-47 | Redline ".data ++ condSuffix "Field-Tested".data)).base)).condition
      = none :=
  condition_strip_idempotent_iff.2 "AK-47 | Redline ".data "Field-Tested".data
    (by decide) (by decide)

/-! ### Identity-key injectivity (C1) -/

/-- C1 (counterexample): two distinct identities — base name `"StatTrak"`
with no flags, and the empty base name with the special-edition flag — both
have delimiter-free base names yet produce the same key, because empty
components are omitted from the join. -/
theorem buildItemKey_collision :
    buildItemKey "StatTrak".data false false none none
      = buildItemKey [] true false none none
    ∧ '|' ∉ "StatTrak".data
    ∧ "StatTrak".data ≠ ([] : List Char)
    ∧ buildItemKey "StatTrak".data false false none none = "StatTrak".data := by
  decide

set_option maxRecDepth 4000 in
lemma decode_comboSuffix :
    ∀ x ∈ allCombos, decodeCombo (comboSuffix x.1 x.2.1 x.2.2.1 x.2.2.2) = x := by
  decide

set_option maxRecDepth 4000 in
lemma comboSuffix_head :
    ∀ x ∈ allCombos, (comboSuffix x.1 x.2.1 x.2.2.1 x.2.2.2).head?.getD '|' = '|' := by
  decide

set_option maxRecDepth 4000 in
lemma comboSuffix_last :
    ∀ x ∈ allCombos,
      isPySpace ((comboSuffix x.1 x.2.1 x.2.2.1 x.2.2.2).getLast?.getD '|') = false := by
  decide

lemma mem_allCombos (st sv : Bool) (c p : Option (List Char))
    (hc : c ∈ condOpts) (hp : p ∈ phaseOpts) : (st, sv, c, p) ∈ allCombos := by
  simp only [allCombos, List.mem_flatMap, List.mem_map]
  exact ⟨st, by cases st <;> simp, sv, by cases sv <;> simp, c, hc, p, hp, rfl⟩

lemma pyJoin_cons_eq : ∀ (parts : List (List Char)) (b : List Char),
    pyJoin ['|'] (b :: parts)
      = b ++ parts.foldr (fun part acc => '|' :: (part ++ acc)) [] := by
  intro parts
  induction parts with
  | nil => intro b; simp [pyJoin]
  | cons q rest ih =>
    intro b
    rw [pyJoin, ih q]
    simp

/-- For a non-empty base, `build_item_key` is the stripped concatenation of
the base and the joined non-base components. -/
lemma buildItemKey_eq (b : List Char) (hb : b ≠ []) (st sv : Bool)
    (c p : Option (List Char)) :
    buildItemKey b st sv c p = pyStrip (b ++ comboSuffix st sv c p) := by
  rw [buildItemKey]
  have hfilter :
      ([b,
        if st then "StatTrak".data else [],
        if sv then "Souvenir".data else [],
        c.getD [],
        p.getD []].filter (fun q => q ≠ []))
        = b :: comboParts st sv c p := by
    rw [comboParts, List.filter_cons, if_pos (by simpa using hb)]
  rw [hfilter]
  exact congrArg pyStrip (pyJoin_cons_eq _ b)

lemma head_not_of_dropWhile_eq_self {p : Char → Bool} {l : List Char}
    (h : l.dropWhile p = l) : ∀ c, l.head? = some c → p c = false := by
  intro c hc
  cases l with
  | nil => cases hc
  | cons a t =>
    cases hc
    by_contra hp
    rw [List.dropWhile_cons, if_pos (by simpa using hp)] at h
    have hlen := congrArg List.length h
    have hle := (List.dropWhile_sublist (l := t) p).length_le
    simp only [List.length_cons] at hlen
    omega

lemma pyStrip_fix_parts {l : List Char} (hfix : pyStrip l = l) :
    l.dropWhile isPySpace = l ∧ l.reverse.dropWhile isPySpace = l.reverse := by
  have h1 : (pyStrip l).length = l.length := by rw [hfix]
  rw [pyStrip] at h1
  simp only [List.length_reverse] at h1
  have hle1 : (l.dropWhile isPySpace).length ≤ l.length :=
    (List.dropWhile_sublist isPySpace).length_le
  have hle2 :
      ((l.dropWhile isPySpace).reverse.dropWhile isPySpace).length
        ≤ (l.dropWhile isPySpace).length := by
    simpa using
      (List.dropWhile_sublist (l := (l.dropWhile isPySpace).reverse) isPySpace).length_le
  have e1 : (l.dropWhile isPySpace).length = l.length := by omega
  have hd1 : l.dropWhile isPySpace = l :=
    (List.dropWhile_sublist isPySpace).eq_of_length e1
  refine ⟨hd1, ?_⟩
  rw [pyStrip, hd1] at hfix
  have := congrArg List.reverse hfix
  rwa [List.reverse_reverse] at this

lemma dropWhile_eq_self_of_head (p : Char → Bool) (l : List Char)
    (h : ∀ c, l.head? = some c → p c = false) : l.dropWhile p = l := by
  cases l with
  | nil => rfl
  | cons c t =>
    rw [List.dropWhile_cons, if_neg (by simp [h c rfl])]

lemma pyStrip_eq_self (l : List Char)
    (hhead : ∀ c, l.head? = some c → isPySpace c = false)
    (hlast : ∀ c, l.getLast? = some c → isPySpace c = false) : pyStrip l = l := by
  rw [pyStrip, dropWhile_eq_self_of_head _ _ hhead,
    dropWhile_eq_self_of_head _ _
      (fun c hc => hlast c (by rwa [List.head?_reverse] at hc)),
    List.reverse_reverse]

/-- The strip at the end of `build_item_key` is a no-op when the base is
itself stripped and the appended component suffix is a valid combination. -/
lemma pyStrip_append_combo (b : List Char) (hbne : b ≠ [])
    (hbfix : pyStrip b = b) (st sv : Bool) (c p : Option (List Char))
    (hmem : (st, sv, c, p) ∈ allCombos) :
    pyStrip (b ++ comboSuffix st sv c p) = b ++ comboSuffix st sv c p := by
  obtain ⟨hd1, hd2⟩ := pyStrip_fix_parts hbfix
  apply pyStrip_eq_self
  · intro ch hch
    rw [List.head?_append] at hch
    cases hb : b.head? with
    | none => exact absurd (List.head?_eq_none_iff.1 hb) hbne
    | some c0 =>
      rw [hb] at hch
      cases hch
      exact head_not_of_dropWhile_eq_self hd1 ch hb
  · intro ch hch
    rw [List.getLast?_append] at hch
    cases hs : (comboSuffix st sv c p).getLast? with
    | none =>
      rw [hs] at hch
      simp only [Option.or] at hch
      have hlast : b.getLast? = some ch := hch
      have : b.reverse.head? = some ch := by rwa [List.head?_reverse]
      exact head_not_of_dropWhile_eq_self hd2 ch this
    | some c0 =>
      rw [hs] at hch
      cases hch
      have := comboSuffix_last _ hmem
      rwa [hs] at this

lemma takeWhile_append_pipe (b s : List Char) (hb : '|' ∉ b)
    (hs : s.head?.getD '|' = '|') :
    (b ++ s).takeWhile (fun c => c ≠ '|') = b := by
  induction b with
  | nil =>
    cases s with
    | nil => rfl
    | cons a t =>
      have ha : a = '|' := by simpa using hs
      subst ha
      simp [List.takeWhile_cons]
  | cons c b ih =>
    have hc : c ≠ '|' := fun h => hb (h ▸ List.mem_cons_self c b)
    rw [List.cons_append, List.takeWhile_cons, if_pos (by simpa using hc)]
    rw [ih (fun h => hb (List.mem_cons_of_mem c h))]

/-- C1 (amended): on identities whose base name is non-empty, free of the
`"|"` delimiter and already whitespace-stripped (as the Name Canonicalizer
produces), with condition and phase drawn from their fixed enumerations or
absent, `build_item_key` is injective: keys are equal exactly when all five
identity fields are equal.  (The counterexample shows this fails when empty
bases or bases equal to marker tokens are admitted.) -/
theorem buildItemKey_injective_on_clean :
    ∀ (b₁ b₂ : List Char) (st₁ sv₁ st₂ sv₂ : Bool)
      (c₁ p₁ c₂ p₂ : Option (List Char)),
      b₁ ≠ [] → '|' ∉ b₁ → pyStrip b₁ = b₁ →
      b₂ ≠ [] → '|' ∉ b₂ → pyStrip b₂ = b₂ →
      c₁ ∈ condOpts → p₁ ∈ phaseOpts → c₂ ∈ condOpts → p₂ ∈ phaseOpts →
      (buildItemKey b₁ st₁ sv₁ c₁ p₁ = buildItemKey b₂ st₂ sv₂ c₂ p₂
        ↔ (b₁ = b₂ ∧ st₁ = st₂ ∧ sv₁ = sv₂ ∧ c₁ = c₂ ∧ p₁ = p₂)) := by
  intro b₁ b₂ st₁ sv₁ st₂ sv₂ c₁ p₁ c₂ p₂ hb₁ hp₁ hf₁ hb₂ hp₂ hf₂ hc₁ hph₁ hc₂ hph₂
  have hm₁ : (st₁, sv₁, c₁, p₁) ∈ allCombos := mem_allCombos _ _ _ _ hc₁ hph₁
  have hm₂ : (st₂, sv₂, c₂, p₂) ∈ allCombos := mem_allCombos _ _ _ _ hc₂ hph₂
  constructor
  · intro hkey
    rw [buildItemKey_eq b₁ hb₁, buildItemKey_eq b₂ hb₂,
      pyStrip_append_combo b₁ hb₁ hf₁ st₁ sv₁ c₁ p₁ hm₁,
      pyStrip_append_combo b₂ hb₂ hf₂ st₂ sv₂ c₂ p₂ hm₂] at hkey
    have hbase : b₁ = b₂ := by
      have t1 := takeWhile_append_pipe b₁ (comboSuffix st₁ sv₁ c₁ p₁) hp₁
        (comboSuffix_head _ hm₁)
      have t2 := takeWhile_append_pipe b₂ (comboSuffix st₂ sv₂ c₂ p₂) hp₂
        (comboSuffix_head _ hm₂)
      rw [← t1, ← t2, hkey]
    subst hbase
    have hsuffix : comboSuffix st₁ sv₁ c₁ p₁ = comboSuffix st₂ sv₂ c₂ p₂ :=
      List.append_cancel_left hkey
    have d1 := decode_comboSuffix _ hm₁
    have d2 := decode_comboSuffix _ hm₂
    rw [hsuffix] at d1
    have hx : ((st₁, sv₁, c₁, p₁) :
        Bool × Bool × Option (List Char) × Option (List Char))
        = (st₂, sv₂, c₂, p₂) := d1.symm.trans d2
    simp only [Prod.mk.injEq] at hx
    exact ⟨rfl, hx.1, hx.2.1, hx.2.2.1, hx.2.2.2⟩
  · rintro ⟨rfl, rfl, rfl, rfl, rfl⟩
    rfl

/-- C1 (witness): the amended theorem applied at concrete identities —
equal identities give equal keys, and flipping just the special-edition
flag changes the key. -/
theorem buildItemKey_injective_witness :
    buildItemKey "AK-47 Redline".data true false (some "Field-Tested".data) none
      ≠ buildItemKey "AK-47 Redline".data false false (some "Field-Tested".data) none := by
  intro hkey
  have h := (buildItemKey_injective_on_clean "AK-47 Redline".data
      "AK-47 Redline".data true false false false
      (some "Field-Tested".data) none (some "Field-Tested".data) none
      (by decide) (by decide) (by decide) (by decide) (by decide) (by decide)
      (by decide) (by decide) (by decide) (by decide)).mp hkey
  exact absurd h.2.1 (by decide)

end

end FloatHunter
